import Mathlib

/-!
Verification development for the symbolic memory of `simuvex/s_memory.py`
and the cache exploration technique of `angr/exploration_techniques/cacher.py`.

The symbolic-expression engine (`symexec`, a thin wrapper over bit-vector
terms) is embedded as a small expression language `SymExpr` with an
evaluation semantics `evalE` over valuations of symbolic variables, and
boolean constraints `Constr` with semantics `evalC`.  The copy-on-write
backing dictionary (`cooldict.BranchingDict`, an external dependency of the
repository) is modelled from the spec as a list of delta layers.  The three
module-level fresh-name counters of `s_memory.py` are threaded explicitly
through the operations as a `Counters` record.
-/

/-- Names of symbolic variables created by `s_memory.py`.  The Python code
builds string names from a memory id, an address and a process-wide counter
using four distinct printf templates that can never collide with each other
(their fixed infixes contain non-hex letters), so the names are modelled as
a four-way tagged union; `mem` is a lazily materialized byte
(`"%s_%x_%d"`, `var_mem_counter`), `addrv` the fresh result of an ambiguous
load (`"%s_addr_%s"`, `addr_mem_counter`), `merge` a fresh merged byte
(`"%s_merge_0x%x_%s"`, `merge_mem_counter`), `uncon` an unconstrained byte
(`"%s_unconstrain_0x%x_%s"`, `addr_mem_counter`). -/
inductive VarName where
  | mem (memId : String) (addr : Nat) (ctr : Nat)
  | addrv (memId : String) (ctr : Nat)
  | merge (memId : String) (addr : Nat) (ctr : Nat)
  | uncon (memId : String) (addr : Nat) (ctr : Nat)
deriving DecidableEq

/-- Bit-vector expressions, embedding the fragment of `symexec` used by
`s_memory.py`: `BitVecVal`, `BitVec`, `Concat` (binary; the variadic z3
`Concat` is folded) and `Extract`. -/
inductive SymExpr where
  | val (v : Nat) (w : Nat)
  | var (n : VarName) (w : Nat)
  | concat (a b : SymExpr)
  | extract (hi lo : Nat) (e : SymExpr)
deriving DecidableEq

/-- Bit width of an expression (z3 `size()`). -/
def SymExpr.size : SymExpr → Nat
  | .val _ w => w
  | .var _ w => w
  | .concat a b => a.size + b.size
  | .extract hi lo _ => hi + 1 - lo

/-- Symbolic variables occurring in an expression. -/
def SymExpr.vars : SymExpr → List VarName
  | .val _ _ => []
  | .var n _ => [n]
  | .concat a b => a.vars ++ b.vars
  | .extract _ _ e => e.vars

/-- Evaluation of an expression under a valuation of the symbolic
variables; every expression of width `w` denotes a natural below `2 ^ w`. -/
def evalE (ρ : VarName → Nat) : SymExpr → Nat
  | .val v w => v % 2 ^ w
  | .var n w => ρ n % 2 ^ w
  | .concat a b => evalE ρ a * 2 ^ b.size + evalE ρ b
  | .extract hi lo e => evalE ρ e / 2 ^ lo % 2 ^ (hi + 1 - lo)

/-- Boolean constraints over `SymExpr`: equality, variadic `And`, variadic
`Or` (as produced by `symexec.And(*l)` / `symexec.Or(*l)`). -/
inductive Constr where
  | eq (a b : SymExpr)
  | conj (cs : List Constr)
  | disj (cs : List Constr)

mutual

/-- Truth value of a constraint under a valuation. -/
def evalC (ρ : VarName → Nat) : Constr → Bool
  | .eq a b => evalE ρ a == evalE ρ b
  | .conj cs => evalCAll ρ cs
  | .disj cs => evalCAny ρ cs

/-- Conjunction of a constraint list under a valuation. -/
def evalCAll (ρ : VarName → Nat) : List Constr → Bool
  | [] => true
  | c :: cs => evalC ρ c && evalCAll ρ cs

/-- Disjunction of a constraint list under a valuation. -/
def evalCAny (ρ : VarName → Nat) : List Constr → Bool
  | [] => false
  | c :: cs => evalC ρ c || evalCAny ρ cs

end

/-- The python-side comparison `expr == n` between an expression and a plain
integer, which z3 coerces to a bit-vector literal of the expression's
width. -/
def eqInt (e : SymExpr) (n : Nat) : Constr := .eq e (.val n e.size)

/-- One delta layer of the branching dictionary: an association list,
newest binding first. -/
abbrev Layer := List (Nat × SymExpr)

/-- Modelled from the spec: the copy-on-write Byte Store
(`cooldict.BranchingDict`, a dependency of the repository that is not under
`src/`).  A store is a list of delta layers, newest first; the head layer
is the one mutated in place by the Python object, the tail layers are the
frozen ancestors shared with sibling branches.  Lookups scan the layers in
order; writes prepend to the head layer (append-only divergence); `branch`
freezes the current layers and gives both the parent and the child a fresh
empty head layer, which is exactly the observable effect of cooldict's
finalize-on-branch protocol. -/
structure BDict where
  layers : List Layer
deriving DecidableEq

/-- Lookup in one layer (first binding wins). -/
def Layer.get (l : Layer) (k : Nat) : Option SymExpr :=
  (l.find? (fun p => p.1 == k)).map (fun p => p.2)

/-- Lookup across the layers, newest first. -/
def BDict.get (d : BDict) (k : Nat) : Option SymExpr :=
  d.layers.findSome? (fun l => l.get k)

/-- Write a binding into the current head layer. -/
def BDict.set (d : BDict) (k : Nat) (v : SymExpr) : BDict :=
  match d.layers with
  | [] => ⟨[[(k, v)]]⟩
  | l :: rest => ⟨((k, v) :: l) :: rest⟩

/-- Modelled from the spec: `branch()` returns a child sharing all current
entries; the parent's node is finalized, so the parent's further writes land
in a fresh delta of its own.  Returns `(parent after branch, child)`. -/
def BDict.branch (d : BDict) : BDict × BDict :=
  (⟨[] :: d.layers⟩, ⟨[] :: d.layers⟩)

/-- Insert into a sorted list of addresses. -/
def insertSorted (x : Nat) : List Nat → List Nat
  | [] => [x]
  | y :: t => if x ≤ y then x :: y :: t else y :: insertSorted x t

/-- Structural insertion sort (kernel-computable). -/
def sortNat (l : List Nat) : List Nat := l.foldr insertSorted []

/-- The canonical representation of a finite set of addresses as a sorted
duplicate-free list: Python's `set` values are modelled by this canonical
form (iteration order of a Python set is unspecified; ascending order is
one faithful choice). -/
def canonSet (l : List Nat) : List Nat := sortNat l.dedup

/-- All keys currently holding a value. -/
def BDict.keys (d : BDict) : List Nat :=
  d.layers.foldr (fun l s => l.map Prod.fst ++ s) []

/-- Modelled from the spec: longest common suffix of two layer lists, the
nearest shared ancestor node in the branch lineage. -/
def commonSuffix (l1 l2 : List Layer) : List Layer :=
  if l1.isSuffixOf l2 then l1
  else
    match l1 with
    | [] => []
    | _ :: t => commonSuffix t l2

/-- Modelled from the spec: `common_ancestor(other)`, none when the two
stores share no recorded history. -/
def BDict.commonAncestor (d1 d2 : BDict) : Option BDict :=
  match commonSuffix d1.layers d2.layers with
  | [] => none
  | suf => some ⟨suf⟩

/-- Modelled from the spec: `changes_since(ancestor)` — the keys written in
the delta layers above the ancestor.  `s_memory.py` never deletes a key, so
the deletion component of the Python pair is constantly empty and is elided
here. -/
def BDict.changesSince (d : BDict) (anc : BDict) : List Nat :=
  (d.layers.take (d.layers.length - anc.layers.length)).foldr
    (fun l s => l.map Prod.fst ++ s) []

/-- The three module-level fresh-name counters of `s_memory.py`
(`var_mem_counter`, `addr_mem_counter`, `merge_mem_counter`), threaded
explicitly. -/
structure Counters where
  varC : Nat
  addrC : Nat
  mergeC : Nat
deriving DecidableEq

/-- `SimMemory.__init__`: a memory view over a branching dictionary with an
enumeration limit (1024), an address width and a string id. -/
structure SimMemory where
  mem : BDict
  limit : Nat
  bits : Nat
  memId : String
deriving DecidableEq

/-- The byte-reading loop of `SimMemory.read_from` (s_memory.py:52-62):
reads `n` consecutive bytes starting at `addr`; a missing byte is
materialized as a fresh unconstrained 8-bit symbolic variable which is
written back into the memory. -/
def readBytes (m : SimMemory) (c : Counters) (addr : Nat) :
    Nat → List SymExpr × SimMemory × Counters
  | 0 => ([], m, c)
  | Nat.succ k =>
    match m.mem.get addr with
    | some b =>
      let r := readBytes m c (addr + 1) k
      (b :: r.1, r.2)
    | none =>
      let b := SymExpr.var (.mem m.memId addr c.varC) 8
      let m1 : SimMemory := { m with mem := m.mem.set addr b }
      let c1 : Counters := { c with varC := c.varC + 1 }
      let r := readBytes m1 c1 (addr + 1) k
      (b :: r.1, r.2)

/-- The variadic `symexec.Concat(*buff)` together with the single-byte
special case of `read_from` (s_memory.py:64-67); the binary fold is
semantically the flat z3 concatenation. -/
def concatList : List SymExpr → SymExpr
  | [] => .val 0 0
  | [x] => x
  | x :: y :: xs => .concat x (concatList (y :: xs))

/-- `SimMemory.read_from` (s_memory.py:52-67). -/
def SimMemory.read_from (m : SimMemory) (c : Counters) (addr numBytes : Nat) :
    SymExpr × SimMemory × Counters :=
  let r := readBytes m c addr numBytes
  (concatList r.1, r.2)

/-- `SimMemory.write_to` (s_memory.py:69-73): for `off` in
`range(0, cnt.size(), 8)`, store `Extract(size-off-1, size-off-8, cnt)` at
`addr + off/8`; byte `addr` receives the most-significant byte. -/
def SimMemory.write_to (m : SimMemory) (addr : Nat) (cnt : SymExpr) : SimMemory :=
  (((List.range ((cnt.size + 7) / 8)).map (fun i => i * 8)).foldl
    (fun mm off =>
      let b := SymExpr.extract (cnt.size - off - 1) (cnt.size - off - 8) cnt
      { mm with mem := mm.mem.set (addr + off / 8) b })) m

/-- The concretization strategy names of `s_memory.py`. -/
inductive Strategy where
  | free
  | allocated
  | writeable
  | executable
  | symbolic
  | any
deriving DecidableEq

/-- The solver-facing view of an address expression (a `SimValue` in the
original): the underlying expression together with the answers of the
opaque solver queries the code performs on it. -/
structure AddrExpr where
  expr : SymExpr
  isSymbolic : Bool
  satisfiable : Bool
  isUnique : Bool
  anyVal : Nat
  anyN : Nat → List Nat
  minVal : Nat
  maxVal : Nat

/-- The two `SimMemoryError` conditions raised by `concretize_addr`. -/
inductive SimMemoryError where
  | unsatAddress
  | concretizationFailure
deriving DecidableEq

/-- What one iteration of the strategy loop of `concretize_addr`
(s_memory.py:83-100) yields: the stubbed strategies yield nothing,
`symbolic` yields the enumeration when the satisfying range is below the
limit, `any` always yields one arbitrary value. -/
def strategyResult (m : SimMemory) (v : AddrExpr) : Strategy → Option (List Nat)
  | .symbolic =>
    if (v.maxVal : Int) - (v.minVal : Int) < (m.limit : Int) then some (v.anyN m.limit)
    else none
  | .any => some [v.anyVal]
  | _ => none

/-- The strategy loop of `concretize_addr`: first strategy that yields a
result wins; exhaustion raises `ConcretizationFailure`
(s_memory.py:83-102). -/
def concretizeLoop (m : SimMemory) (v : AddrExpr) :
    List Strategy → Except SimMemoryError (List Nat)
  | [] => .error .concretizationFailure
  | s :: rest =>
    match strategyResult m v s with
    | some r => .ok r
    | none => concretizeLoop m v rest

/-- `SimMemory.concretize_addr` (s_memory.py:75-102). -/
def SimMemory.concretize_addr (m : SimMemory) (v : AddrExpr)
    (strategies : List Strategy) : Except SimMemoryError (List Nat) :=
  if v.isSymbolic && !v.satisfiable then .error .unsatAddress
  else if v.isUnique then .ok [v.anyVal]
  else concretizeLoop m v strategies

/-- `SimMemory.concretize_write_addr` (s_memory.py:104-105). -/
def SimMemory.concretize_write_addr (m : SimMemory) (v : AddrExpr) :
    Except SimMemoryError (List Nat) :=
  m.concretize_addr v [.free, .writeable, .any]

/-- `SimMemory.concretize_read_addr` (s_memory.py:107-108). -/
def SimMemory.concretize_read_addr (m : SimMemory) (v : AddrExpr) :
    Except SimMemoryError (List Nat) :=
  m.concretize_addr v [.symbolic, .any]

/-- A store/load destination: a plain Python integer or a symbolic value
(the `type(dst) in (int, long)` dispatch of s_memory.py:124,138). -/
inductive Dst where
  | int (a : Nat)
  | sym (v : AddrExpr)

/-- `SimMemory.store` (s_memory.py:123-135). -/
def SimMemory.store (m : SimMemory) (dst : Dst) (cnt : SymExpr) :
    Except SimMemoryError (List Constr × SimMemory) :=
  match dst with
  | .int a => .ok ([], m.write_to a cnt)
  | .sym v =>
    if v.isUnique then .ok ([], m.write_to v.anyVal cnt)
    else
      match m.concretize_write_addr v with
      | .error e => .error e
      | .ok addrs =>
        let a := addrs.headD 0
        .ok ([eqInt v.expr a], m.write_to a cnt)

/-- The per-candidate constraint comprehension of the ambiguous-load branch
(s_memory.py:153): for each candidate address in order, read the stored
value there (possibly materializing bytes) and build
`And(m == value, dst.expr == addr)`. -/
def loadDisjuncts (mv ve : SymExpr) (size : Nat) (addrs : List Nat)
    (st : List Constr × SimMemory × Counters) : List Constr × SimMemory × Counters :=
  addrs.foldl
    (fun (acc : List Constr × SimMemory × Counters) a =>
      let rr := acc.2.1.read_from acc.2.2 a size
      (acc.1 ++ [Constr.conj [.eq mv rr.1, eqInt ve a]], rr.2))
    st

/-- `SimMemory.load` (s_memory.py:137-154). -/
def SimMemory.load (m : SimMemory) (c : Counters) (dst : Dst) (size : Nat) :
    Except SimMemoryError (SymExpr × List Constr × SimMemory × Counters) :=
  match dst with
  | .int a =>
    let r := m.read_from c a size
    .ok (r.1, [], r.2)
  | .sym v =>
    if v.isUnique then
      let r := m.read_from c v.anyVal size
      .ok (r.1, [], r.2)
    else
      match m.concretize_read_addr v with
      | .error e => .error e
      | .ok [a] =>
        let r := m.read_from c a size
        .ok (r.1, [eqInt v.expr a], r.2)
      | .ok addrs =>
        let mv := SymExpr.var (.addrv m.memId c.addrC) (size * 8)
        let r := loadDisjuncts mv v.expr size addrs ([], m, { c with addrC := c.addrC + 1 })
        .ok (mv, [Constr.disj r.1], r.2)

/-- `SimMemory.copy` (s_memory.py:157-160), together with the finalizing
effect of `branch()` on the parent; returns `(parent, copy)`. -/
def SimMemory.copy (m : SimMemory) : SimMemory × SimMemory :=
  let b := m.mem.branch
  ({ m with mem := b.1 }, { m with mem := b.2 })

/-- `SimMemory.changed_bytes` (s_memory.py:163-180), as the canonical list
form of the Python set. -/
def SimMemory.changed_bytes (m o : SimMemory) : List Nat :=
  match m.mem.commonAncestor o.mem with
  | none => canonSet (m.mem.keys ++ o.mem.keys)
  | some anc => canonSet (m.mem.changesSince anc ++ o.mem.changesSince anc)

/-- The union of changed bytes over all the states being merged
(s_memory.py:197-199), iterated in ascending address order (the Python
`set` iteration order is unspecified; the sorted order is one faithful
choice). -/
def SimMemory.merge_changed (m : SimMemory) (others : List SimMemory) : List Nat :=
  canonSet (others.foldl (fun s o => s ++ m.changed_bytes o) [])

/-- One iteration of the merge loop (s_memory.py:202-215) at one address:
read the byte from `self` and from each other state (`load` with a concrete
integer address is `read_from` with no constraints), allocate a fresh merged
byte, store it into `self`, and record
`Or(And(flag == fv, merged == alt), ...)` over `zip(alternatives,
flag_values)`.  `mergeAlts` is the inner loop collecting the other states'
alternatives (s_memory.py:206-207). -/
def mergeAlts (addr : Nat) (others : List SimMemory)
    (st : List SymExpr × List SimMemory × Counters) :
    List SymExpr × List SimMemory × Counters :=
  others.foldl
    (fun (acc : List SymExpr × List SimMemory × Counters) o =>
      let rr := o.read_from acc.2.2 addr 1
      (acc.1 ++ [rr.1], acc.2.1 ++ [rr.2.1], rr.2.2))
    st

def mergeOne (memId : String) (flag : SymExpr) (flagValues : List Nat)
    (st : SimMemory × List SimMemory × Counters × List Constr) (addr : Nat) :
    SimMemory × List SimMemory × Counters × List Constr :=
  let m := st.1
  let r0 := m.read_from st.2.2.1 addr 1
  let a0 := r0.1
  let m1 := r0.2.1
  let fo := mergeAlts addr st.2.1 ([a0], [], r0.2.2)
  let mv := SymExpr.var (.merge memId addr fo.2.2.mergeC) 8
  let c3 : Counters := { fo.2.2 with mergeC := fo.2.2.mergeC + 1 }
  let ands := (fo.1.zip flagValues).map
    (fun p => Constr.conj [eqInt flag p.2, .eq mv p.1])
  let m2 := m1.write_to addr mv
  (m2, fo.2.1, c3, st.2.2.2 ++ [Constr.disj ands])

/-- `SimMemory.merge` (s_memory.py:196-216).  Returns the constraint list
together with the mutated `self`, the (lazily grown) other memories and the
updated counters. -/
def SimMemory.merge (m : SimMemory) (others : List SimMemory) (c : Counters)
    (flag : SymExpr) (flagValues : List Nat) :
    List Constr × SimMemory × List SimMemory × Counters :=
  let r := (m.merge_changed others).foldl (mergeOne m.memId flag flagValues)
    (m, others, c, [])
  (r.2.2.2, r.1, r.2.1, r.2.2.1)

/-! ## Cacher (`angr/exploration_techniques/cacher.py`) -/

/-- An execution state as seen by the Cacher: a project reference (detached
during pickling) and the trim status of its history. -/
structure SimState where
  project : Option Nat
  trimmed : Bool
deriving DecidableEq

/-- A simulation manager: its project and the stash being stepped. -/
structure SimManager where
  project : Nat
  stash : List SimState
deriving DecidableEq

/-- Exceptions a pickling call can raise: `RuntimeError` (the maximum
recursion depth case) or anything else. -/
inductive PickleErr where
  | runtimeError (msg : String)
  | other (msg : String)
deriving DecidableEq

/-- `Cacher._dump_stash` (cacher.py:83-95): detach every state's project
reference and trim its history, attempt the pickling, catch `RuntimeError`
(logging it) while letting any other exception propagate, and in all cases
restore the project references (the `finally` block).  Returns the final
stash, the log lines emitted, and the exception escaping the call, if
any. -/
def Cacher.dump_stash (outcome : Except PickleErr Unit) (proj : Nat)
    (states : List SimState) : List SimState × List String × Option PickleErr :=
  let detached := states.map (fun s => { s with project := none, trimmed := true })
  let handled : List String × Option PickleErr :=
    match outcome with
    | .ok _ => ([], none)
    | .error (.runtimeError msg) => (["Unable to cache, " ++ msg ++ " during pickling"], none)
    | .error e => ([], some e)
  let restored := detached.map (fun s => { s with project := some proj })
  (restored, handled.1, handled.2)

/-- The per-state loop of `Cacher.step` (cacher.py:58-71), iterating over
the positions of the stash: a state satisfying the dump condition whose
cache file does not already exist triggers a dump of the whole stash; an
exception escaping the dump aborts the loop.  `pickle k` is the outcome of
the `k`-th pickling attempt, `fileExists` the oracle for
`os.path.exists`. -/
def Cacher.stepLoop (dumpCache : Bool) (pickle : Nat → Except PickleErr Unit)
    (cond fileExists : SimState → Bool) (proj : Nat) :
    List Nat → Nat → List SimState → List String →
    List SimState × List String × Option PickleErr
  | [], _, stash, logs => (stash, logs, none)
  | i :: rest, di, stash, logs =>
    let s := stash.getD i ⟨none, false⟩
    if dumpCache && cond s then
      if fileExists s then
        Cacher.stepLoop dumpCache pickle cond fileExists proj rest di stash logs
      else
        let r := Cacher.dump_stash (pickle di) proj stash
        match r.2.2 with
        | some e => (r.1, logs ++ r.2.1, some e)
        | none =>
          Cacher.stepLoop dumpCache pickle cond fileExists proj rest (di + 1) r.1
            (logs ++ r.2.1)
    else
      Cacher.stepLoop dumpCache pickle cond fileExists proj rest di stash logs

/-- `Cacher.step` (cacher.py:58-74): run the dump loop over the stash, then
hand over to `simgr.step` (abstracted as `stepFn`); an uncaught exception
from a dump propagates instead. -/
def Cacher.step (dumpCache : Bool) (pickle : Nat → Except PickleErr Unit)
    (cond fileExists : SimState → Bool) (stepFn : SimManager → SimManager)
    (mgr : SimManager) : Except PickleErr (SimManager × List String) :=
  let r := Cacher.stepLoop dumpCache pickle cond fileExists mgr.project
    (List.range mgr.stash.length) 0 mgr.stash []
  match r.2.2 with
  | some e => .error e
  | none => .ok (stepFn { mgr with stash := r.1 }, r.2.1)

/-! ## Counter bounds and freshness -/

/-- A symbolic variable is within the caps `(vc, ac, mc)` when its creating
counter is below the cap of its kind (`vc` for materialized bytes, `ac` for
ambiguous-load results and unconstrained bytes, `mc` for merged bytes). -/
def VarBoundBy (vc ac mc : Nat) : VarName → Prop
  | .mem _ _ k => k < vc
  | .addrv _ k => k < ac
  | .merge _ _ k => k < mc
  | .uncon _ _ k => k < ac

instance (vc ac mc : Nat) (n : VarName) : Decidable (VarBoundBy vc ac mc n) :=
  match n with
  | .mem _ _ k => (inferInstance : Decidable (k < vc))
  | .addrv _ k => (inferInstance : Decidable (k < ac))
  | .merge _ _ k => (inferInstance : Decidable (k < mc))
  | .uncon _ _ k => (inferInstance : Decidable (k < ac))

/-- Every variable of the expression is within the caps. -/
def ExprBoundBy (vc ac mc : Nat) (e : SymExpr) : Prop :=
  ∀ n ∈ e.vars, VarBoundBy vc ac mc n

/-- Every expression stored in any layer of the dictionary is within the
caps. -/
def DictBoundBy (vc ac mc : Nat) (d : BDict) : Prop :=
  ∀ l ∈ d.layers, ∀ p ∈ l, ExprBoundBy vc ac mc p.2

/-- Every expression stored in the memory is within the caps. -/
def MemBoundBy (vc ac mc : Nat) (m : SimMemory) : Prop :=
  DictBoundBy vc ac mc m.mem

instance (vc ac mc : Nat) (e : SymExpr) : Decidable (ExprBoundBy vc ac mc e) :=
  inferInstanceAs (Decidable (∀ n ∈ e.vars, VarBoundBy vc ac mc n))

instance (vc ac mc : Nat) (d : BDict) : Decidable (DictBoundBy vc ac mc d) :=
  inferInstanceAs (Decidable (∀ l ∈ d.layers, ∀ p ∈ l, ExprBoundBy vc ac mc p.2))

instance (vc ac mc : Nat) (m : SimMemory) : Decidable (MemBoundBy vc ac mc m) :=
  inferInstanceAs (Decidable (DictBoundBy vc ac mc m.mem))

/-! ## Specification-side helper definitions and concrete sample values -/

/-- The fold of single-byte writes performed by `write_to`, on the bare
dictionary. -/
def writeFold (addr : Nat) (cnt : SymExpr) (d : BDict) : BDict :=
  ((List.range ((cnt.size + 7) / 8)).map (fun i => i * 8)).foldl
    (fun dd off =>
      dd.set (addr + off / 8) (.extract (cnt.size - off - 1) (cnt.size - off - 8) cnt)) d

/-- Value of a big-endian digit list in base 256. -/
def digitsVal : List Nat → Nat
  | [] => 0
  | d :: ds => d * 2 ^ (8 * ds.length) + digitsVal ds

/-- The `i`-th big-endian byte of an `n`-byte value. -/
def byteOf (x n i : Nat) : Nat := x / 2 ^ (8 * (n - 1 - i)) % 256

/-- An initially empty memory view, as built by `SimMemory()` with no
backer. -/
def emptyMem : SimMemory := ⟨⟨[]⟩, 1024, 64, "mem"⟩

/-- All counters at zero (process start). -/
def czero : Counters := ⟨0, 0, 0⟩

/-- A sample concrete (unique-valued) address expression, for witnesses. -/
def sampleUnique : AddrExpr :=
  ⟨.val 5 64, false, true, true, 5, fun _ => [5], 5, 5⟩

/-- A sample satisfiable, non-unique symbolic address expression that
concretizes to the two candidates 4 and 5, for witnesses. -/
def sampleSym : AddrExpr :=
  ⟨.var (.mem "addrsrc" 0 0) 64, true, true, false, 4, fun _ => [4, 5], 4, 5⟩

/-- A sample memory holding the byte 17 at address 4 and the byte 34 at
address 5, for witnesses. -/
def twoMem : SimMemory := ⟨⟨[[(4, .val 17 8), (5, .val 34 8)]]⟩, 1024, 64, "mem"⟩

/-- Counters after one materialization, so that the variable inside
`sampleSym` is in the past of the counter state, for witnesses. -/
def cone : Counters := ⟨1, 0, 0⟩

/-- A sample symbolic merge flag, for witnesses. -/
def flagE : SymExpr := .var (.mem "flag" 0 0) 64

/-- A view that branched off a parent holding byte 17 at address 100 and
left it unchanged, for merge witnesses. -/
def mergeM0 : SimMemory := ⟨⟨[[], [(100, .val 17 8)]]⟩, 1024, 64, "mem"⟩

/-- A sibling view that overwrote address 100 with byte 34 after the same
branch point, for merge witnesses. -/
def mergeM1 : SimMemory := ⟨⟨[[(100, .val 34 8)], [(100, .val 17 8)]]⟩, 1024, 64, "mem"⟩

/-! ## Basic lemmas about the expression semantics -/

/-- Every expression denotes a value below `2 ^ width`. -/
theorem evalE_lt (ρ : VarName → Nat) (e : SymExpr) : evalE ρ e < 2 ^ e.size := by
  induction e with
  | val v w => exact Nat.mod_lt _ (Nat.pow_pos (by norm_num))
  | var n w => exact Nat.mod_lt _ (Nat.pow_pos (by norm_num))
  | concat a b iha ihb =>
    simp only [evalE, SymExpr.size, pow_add]
    have h1 : evalE ρ a * 2 ^ b.size + evalE ρ b < (evalE ρ a + 1) * 2 ^ b.size := by
      rw [Nat.add_mul, one_mul]
      exact Nat.add_lt_add_left ihb _
    exact lt_of_lt_of_le h1 (Nat.mul_le_mul_right _ iha)
  | extract hi lo e ih => exact Nat.mod_lt _ (Nat.pow_pos (by norm_num))

theorem evalCAll_iff (ρ : VarName → Nat) (cs : List Constr) :
    evalCAll ρ cs = true ↔ ∀ c ∈ cs, evalC ρ c = true := by
  induction cs with
  | nil => simp [evalCAll]
  | cons c t ih => simp [evalCAll, ih]

theorem evalCAny_iff (ρ : VarName → Nat) (cs : List Constr) :
    evalCAny ρ cs = true ↔ ∃ c ∈ cs, evalC ρ c = true := by
  induction cs with
  | nil => simp [evalCAny]
  | cons c t ih => simp [evalCAny, ih]

/-! ## Lemmas about the byte store -/

theorem BDict.get_set_self (d : BDict) (k : Nat) (v : SymExpr) :
    (d.set k v).get k = some v := by
  rcases d with ⟨layers⟩
  cases layers with
  | nil => simp [BDict.set, BDict.get, Layer.get]
  | cons l rest => simp [BDict.set, BDict.get, Layer.get, List.find?]

theorem BDict.get_set_ne (d : BDict) (k k' : Nat) (v : SymExpr) (h : k' ≠ k) :
    (d.set k v).get k' = d.get k' := by
  rcases d with ⟨layers⟩
  have hb : (k == k') = false := by
    simp only [beq_eq_false_iff_ne]
    exact fun hk => h hk.symm
  have hl : ∀ l : Layer, Layer.get ((k, v) :: l) k' = Layer.get l k' := by
    intro l
    simp [Layer.get, List.find?_cons_of_neg, hb]
  cases layers with
  | nil =>
    simp only [BDict.set, BDict.get, List.findSome?_cons, List.findSome?_nil, hl]
    simp [Layer.get]
  | cons l rest => simp [BDict.set, BDict.get, List.findSome?_cons, hl]

/-- Folding a sequence of writes whose keys all differ from `b` leaves the
lookup at `b` unchanged. -/
theorem get_foldl_set_outside (l : List Nat) (key : Nat → Nat) (f : Nat → SymExpr)
    (d : BDict) (b : Nat) (hb : ∀ i ∈ l, b ≠ key i) :
    (l.foldl (fun dd i => dd.set (key i) (f i)) d).get b = d.get b := by
  induction l generalizing d with
  | nil => rfl
  | cons i t ih =>
    simp only [List.foldl_cons]
    rw [ih _ (fun j hj => hb j (List.mem_cons_of_mem _ hj)),
      BDict.get_set_ne _ _ _ _ (hb i (List.mem_cons_self _ _))]

/-- Folding a sequence of writes over keys that are injective along the
list makes the lookup at a written key return its written value. -/
theorem get_foldl_set_mem (l : List Nat) (key : Nat → Nat) (f : Nat → SymExpr)
    (d : BDict) (i : Nat) (hi : i ∈ l) (hinj : ∀ j ∈ l, key j = key i → j = i) :
    (l.foldl (fun dd j => dd.set (key j) (f j)) d).get (key i) = some (f i) := by
  induction l generalizing d with
  | nil => cases hi
  | cons a t ih =>
    simp only [List.foldl_cons]
    by_cases hmem : ∃ j ∈ t, key j = key i
    · obtain ⟨j, hj, hkey⟩ := hmem
      have hji : j = i := hinj j (List.mem_cons_of_mem _ hj) hkey
      subst hji
      exact ih _ hj (fun j hj2 hk => hinj j (List.mem_cons_of_mem _ hj2) hk)
    · push_neg at hmem
      have hia : i = a := by
        rcases List.mem_cons.mp hi with h | h
        · exact h
        · exact absurd rfl (hmem i h)
      subst hia
      rw [get_foldl_set_outside t key f _ _ (fun j hj => fun hk => hmem j hj hk.symm)]
      exact BDict.get_set_self _ _ _

/-- A structure-update fold is the fold of the updates on the `mem`
field. -/
theorem foldl_mem_update (L : List Nat) (g : BDict → Nat → BDict) (m : SimMemory) :
    L.foldl (fun mm off => { mm with mem := g mm.mem off }) m =
      { m with mem := L.foldl g m.mem } := by
  induction L generalizing m with
  | nil => rfl
  | cons a t ih => simp only [List.foldl_cons, ih]

/-- `write_to` only changes the `mem` field, by a fold of single-byte
writes. -/
theorem write_to_eq (m : SimMemory) (addr : Nat) (cnt : SymExpr) :
    m.write_to addr cnt = { m with mem := writeFold addr cnt m.mem } := by
  unfold SimMemory.write_to writeFold
  exact foldl_mem_update ((List.range ((cnt.size + 7) / 8)).map (fun i => i * 8))
    (fun dd off =>
      dd.set (addr + off / 8) (.extract (cnt.size - off - 1) (cnt.size - off - 8) cnt)) m

theorem write_to_memId (m : SimMemory) (addr : Nat) (cnt : SymExpr) :
    (m.write_to addr cnt).memId = m.memId := by
  rw [write_to_eq]

theorem write_to_limit (m : SimMemory) (addr : Nat) (cnt : SymExpr) :
    (m.write_to addr cnt).limit = m.limit := by
  rw [write_to_eq]

/-- The number of bytes written by `write_to` for a value whose width is a
positive multiple of 8. -/
theorem byte_count_eq (n : Nat) : (8 * n + 7) / 8 = n := by omega

/-- Byte `addr + i` after a multi-byte write holds the `i`-th byte counted
from the most significant end (s_memory.py:69-73). -/
theorem write_to_get (m : SimMemory) (A : Nat) (X : SymExpr) (n i : Nat)
    (hs : X.size = 8 * n) (hi : i < n) :
    (m.write_to A X).mem.get (A + i) =
      some (.extract (8 * n - 8 * i - 1) (8 * n - 8 * i - 8) X) := by
  rw [write_to_eq]
  show (writeFold A X m.mem).get (A + i) = _
  have hcount : (X.size + 7) / 8 = n := by rw [hs]; exact byte_count_eq n
  unfold writeFold
  rw [hcount]
  have hkey : A + i = A + (i * 8) / 8 := by omega
  have hmem : i * 8 ∈ (List.range n).map (fun j => j * 8) :=
    List.mem_map.mpr ⟨i, List.mem_range.mpr hi, rfl⟩
  have hinj : ∀ j ∈ (List.range n).map (fun j => j * 8),
      A + j / 8 = A + (i * 8) / 8 → j = i * 8 := by
    intro j hj hk
    obtain ⟨j0, hj0, rfl⟩ := List.mem_map.mp hj
    omega
  rw [hkey, get_foldl_set_mem _ (fun off => A + off / 8)
    (fun off => .extract (X.size - off - 1) (X.size - off - 8) X) m.mem (i * 8) hmem hinj]
  have h1 : X.size - i * 8 - 1 = 8 * n - 8 * i - 1 := by omega
  have h2 : X.size - i * 8 - 8 = 8 * n - 8 * i - 8 := by omega
  rw [h1, h2]

/-- A multi-byte write leaves lookups outside the written range
unchanged. -/
theorem write_to_get_outside (m : SimMemory) (A : Nat) (X : SymExpr) (b : Nat)
    (hb : b < A ∨ A + (X.size + 7) / 8 ≤ b) :
    (m.write_to A X).mem.get b = m.mem.get b := by
  rw [write_to_eq]
  show (writeFold A X m.mem).get b = _
  unfold writeFold
  apply get_foldl_set_outside
  intro j hj
  obtain ⟨j0, hj0, rfl⟩ := List.mem_map.mp hj
  have := List.mem_range.mp hj0
  omega

/-! ## Concatenation semantics and byte recomposition -/

theorem concatList_size (xs : List SymExpr) (h : ∀ x ∈ xs, x.size = 8) :
    (concatList xs).size = 8 * xs.length := by
  induction xs with
  | nil => rfl
  | cons x t ih =>
    cases t with
    | nil => simp [concatList, h x (List.mem_cons_self _ _), SymExpr.size]
    | cons y ts =>
      show (SymExpr.concat x (concatList (y :: ts))).size = _
      have hx := h x (List.mem_cons_self _ _)
      have ht := ih (fun z hz => h z (List.mem_cons_of_mem _ hz))
      simp only [SymExpr.size, hx, ht, List.length_cons]
      ring

theorem evalE_concatList (ρ : VarName → Nat) (xs : List SymExpr)
    (h : ∀ x ∈ xs, x.size = 8) :
    evalE ρ (concatList xs) = digitsVal (xs.map (evalE ρ)) := by
  induction xs with
  | nil => simp [concatList, evalE, digitsVal]
  | cons x t ih =>
    cases t with
    | nil => simp [concatList, digitsVal, evalE]
    | cons y ts =>
      show evalE ρ (.concat x (concatList (y :: ts))) = _
      have ht := ih (fun z hz => h z (List.mem_cons_of_mem _ hz))
      have hsz := concatList_size (y :: ts) (fun z hz => h z (List.mem_cons_of_mem _ hz))
      simp only [evalE, ht, hsz, digitsVal, List.map_cons, List.length_cons,
        List.length_map]

theorem digitsVal_append (ds : List Nat) (d : Nat) :
    digitsVal (ds ++ [d]) = digitsVal ds * 256 + d := by
  induction ds with
  | nil => simp [digitsVal]
  | cons a t ih =>
    show a * 2 ^ (8 * (t ++ [d]).length) + digitsVal (t ++ [d]) =
      (a * 2 ^ (8 * t.length) + digitsVal t) * 256 + d
    rw [ih, show (t ++ [d]).length = t.length + 1 by simp,
      show 8 * (t.length + 1) = 8 * t.length + 8 by ring, pow_add,
      show (2 : Nat) ^ 8 = 256 by norm_num]
    ring

/-- Recombining the big-endian bytes of `x` gives back `x` modulo the total
width. -/
theorem digitsVal_bytes (n : Nat) : ∀ x : Nat,
    digitsVal ((List.range n).map (byteOf x n)) = x % 2 ^ (8 * n) := by
  induction n with
  | zero => intro x; simp [digitsVal, Nat.mod_one]
  | succ k ih =>
    intro x
    rw [List.range_succ, List.map_append]
    have hmap : (List.range k).map (byteOf x (k + 1)) =
        (List.range k).map (byteOf (x / 256) k) := by
      apply List.map_congr_left
      intro i hi
      have hik : i < k := List.mem_range.mp hi
      unfold byteOf
      rw [show 8 * (k + 1 - 1 - i) = 8 + 8 * (k - 1 - i) by omega, pow_add,
        show (2 : Nat) ^ 8 = 256 by norm_num, Nat.div_div_eq_div_mul x 256,
        Nat.mul_comm (256 : Nat)]
    rw [hmap, List.map_singleton, digitsVal_append, ih (x / 256)]
    have hb : byteOf x (k + 1) k = x % 256 := by
      unfold byteOf
      simp [show k + 1 - 1 - k = 0 by omega]
    rw [hb]
    rw [show 8 * (k + 1) = 8 + 8 * k by ring, pow_add,
      show (2 : Nat) ^ 8 = 256 by norm_num, Nat.mod_mul]
    ring

/-! ## `read_from` on fully present ranges -/

/-- Reading a range whose bytes are all present returns exactly the stored
expressions and performs no mutation. -/
theorem readBytes_all_present (n : Nat) : ∀ (m : SimMemory) (c : Counters)
    (addr : Nat) (f : Nat → SymExpr),
    (∀ i, i < n → m.mem.get (addr + i) = some (f i)) →
    readBytes m c addr n = ((List.range n).map f, m, c) := by
  induction n with
  | zero => intro m c addr f _; rfl
  | succ k ih =>
    intro m c addr f h
    have h0 : m.mem.get addr = some (f 0) := by
      have := h 0 (Nat.succ_pos k)
      simpa using this
    show readBytes m c addr (Nat.succ k) = _
    rw [readBytes, h0]
    have hrest : readBytes m c (addr + 1) k = ((List.range k).map (fun i => f (i + 1)), m, c) := by
      apply ih
      intro i hik
      have := h (i + 1) (Nat.succ_lt_succ hik)
      rw [show addr + 1 + i = addr + (i + 1) by ring]
      exact this
    rw [hrest]
    simp [List.range_succ_eq_map, List.map_map, Function.comp]

/-! ## Claim C7: round trip -/

/-- C7: for every concrete address `A` and value `X` of `n` bytes,
`store(A, X)` followed by `load(A, n)` returns, with an empty list of extra
constraints, a value equal (under every valuation) to `X`. -/
theorem store_load_round_trip (m : SimMemory) (c : Counters) (A n : Nat)
    (X : SymExpr) (hs : X.size = 8 * n) (hn : 0 < n) :
    m.store (.int A) X = .ok ([], m.write_to A X) ∧
    (m.write_to A X).load c (.int A) n =
      .ok (concatList ((List.range n).map
          (fun i => .extract (8 * n - 8 * i - 1) (8 * n - 8 * i - 8) X)), [],
        m.write_to A X, c) ∧
    ∀ ρ, evalE ρ (concatList ((List.range n).map
        (fun i => .extract (8 * n - 8 * i - 1) (8 * n - 8 * i - 8) X))) = evalE ρ X := by
  refine ⟨rfl, ?_, ?_⟩
  · have hbytes := readBytes_all_present n (m.write_to A X) c A
      (fun i => .extract (8 * n - 8 * i - 1) (8 * n - 8 * i - 8) X)
      (fun i hi => write_to_get m A X n i hs hi)
    simp [SimMemory.load, SimMemory.read_from, hbytes]
  · intro ρ
    have hsz8 : ∀ x ∈ (List.range n).map
        (fun i => SymExpr.extract (8 * n - 8 * i - 1) (8 * n - 8 * i - 8) X), x.size = 8 := by
      intro x hx
      obtain ⟨i, hi, rfl⟩ := List.mem_map.mp hx
      have := List.mem_range.mp hi
      show 8 * n - 8 * i - 1 + 1 - (8 * n - 8 * i - 8) = 8
      omega
    rw [evalE_concatList ρ _ hsz8, List.map_map]
    have hbyte : ((List.range n).map (evalE ρ ∘ fun i =>
        SymExpr.extract (8 * n - 8 * i - 1) (8 * n - 8 * i - 8) X)) =
        (List.range n).map (byteOf (evalE ρ X) n) := by
      apply List.map_congr_left
      intro i hi
      have hin := List.mem_range.mp hi
      show evalE ρ (.extract (8 * n - 8 * i - 1) (8 * n - 8 * i - 8) X) = _
      simp only [evalE, byteOf]
      rw [show 8 * n - 8 * i - 1 + 1 - (8 * n - 8 * i - 8) = 8 by omega,
        show 8 * n - 8 * i - 8 = 8 * (n - 1 - i) by omega]
      norm_num
    rw [hbyte, digitsVal_bytes n (evalE ρ X)]
    have hlt : evalE ρ X < 2 ^ (8 * n) := by
      have := evalE_lt ρ X
      rwa [hs] at this
    exact Nat.mod_eq_of_lt hlt

/-- Witness for C7 at the concrete two-byte value 0x1234 stored at address
5 in an empty memory. -/
theorem store_load_round_trip_witness :
    (SymExpr.val 4660 16).size = 8 * 2 ∧ 0 < 2 ∧
    ∀ ρ, evalE ρ (concatList ((List.range 2).map
        (fun i => .extract (8 * 2 - 8 * i - 1) (8 * 2 - 8 * i - 8) (SymExpr.val 4660 16)))) =
      evalE ρ (SymExpr.val 4660 16) :=
  ⟨rfl, by decide,
    (store_load_round_trip emptyMem czero 5 2 (.val 4660 16) rfl (by decide)).2.2⟩

/-! ## Claim C8: big-endian storage layout -/

/-- C8: after a multi-byte store of an `n`-byte value at concrete address
`A`, loading one byte at `A + i` yields the `i`-th byte counted from the
most significant end: byte `A` holds the most-significant byte, byte
`A + n - 1` the least-significant byte. -/
theorem big_endian_layout (m : SimMemory) (c : Counters) (A : Nat) (X : SymExpr)
    (n i : Nat) (hs : X.size = 8 * n) (hi : i < n) :
    (m.write_to A X).load c (.int (A + i)) 1 =
      .ok (.extract (8 * n - 8 * i - 1) (8 * n - 8 * i - 8) X, [],
        m.write_to A X, c) ∧
    ∀ ρ, evalE ρ (SymExpr.extract (8 * n - 8 * i - 1) (8 * n - 8 * i - 8) X) =
      evalE ρ X / 2 ^ (8 * (n - 1 - i)) % 256 := by
  constructor
  · have hbytes := readBytes_all_present 1 (m.write_to A X) c (A + i)
      (fun _ => .extract (8 * n - 8 * i - 1) (8 * n - 8 * i - 8) X)
      (fun j hj => by
        have hj0 : j = 0 := by omega
        subst hj0
        show (m.write_to A X).mem.get (A + i + 0) = _
        rw [Nat.add_zero]
        exact write_to_get m A X n i hs hi)
    simp [SimMemory.load, SimMemory.read_from, hbytes, concatList]
  · intro ρ
    simp only [evalE]
    rw [show 8 * n - 8 * i - 1 + 1 - (8 * n - 8 * i - 8) = 8 by omega,
      show 8 * n - 8 * i - 8 = 8 * (n - 1 - i) by omega]
    norm_num

/-- Witness for C8: storing the 2-byte value 0x1234 at address 3, the byte
loaded at 3 evaluates to 0x12 and the byte at 3+1 evaluates to 0x34. -/
theorem big_endian_layout_witness :
    (SymExpr.val 4660 16).size = 8 * 2 ∧ 0 < 2 ∧ 1 < 2 ∧
    evalE (fun _ => 0) (SymExpr.extract (8 * 2 - 8 * 0 - 1) (8 * 2 - 8 * 0 - 8) (.val 4660 16)) =
      evalE (fun _ => 0) (SymExpr.val 4660 16) / 2 ^ (8 * (2 - 1 - 0)) % 256 ∧
    evalE (fun _ => 0) (SymExpr.extract (8 * 2 - 8 * 1 - 1) (8 * 2 - 8 * 1 - 8) (.val 4660 16)) =
      evalE (fun _ => 0) (SymExpr.val 4660 16) / 2 ^ (8 * (2 - 1 - 1)) % 256 ∧
    evalE (fun _ => 0) (SymExpr.extract 15 8 (.val 4660 16)) = 18 ∧
    evalE (fun _ => 0) (SymExpr.extract 7 0 (.val 4660 16)) = 52 :=
  ⟨rfl, by decide, by decide,
    (big_endian_layout emptyMem czero 3 (.val 4660 16) 2 0 rfl (by decide)).2 (fun _ => 0),
    (big_endian_layout emptyMem czero 3 (.val 4660 16) 2 1 rfl (by decide)).2 (fun _ => 0),
    by decide, by decide⟩

/-! ## Claim C10: lazily materialized bytes persist -/

/-- C10: a one-byte load at a concrete address holding no entry returns a
fresh unconstrained 8-bit symbolic byte, writes that byte back into the
mapping (the load mutates the state), after which the address is in the
store's key set and an immediately repeated load returns the identical
expression and the identical state, with no new symbol allocated. -/
theorem lazy_read_persists (m : SimMemory) (c : Counters) (a : Nat)
    (h : m.mem.get a = none) :
    m.load c (.int a) 1 =
      .ok (.var (.mem m.memId a c.varC) 8, [],
        { m with mem := m.mem.set a (.var (.mem m.memId a c.varC) 8) },
        { c with varC := c.varC + 1 }) ∧
    ({ m with mem := m.mem.set a (.var (.mem m.memId a c.varC) 8) } : SimMemory).mem.get a =
      some (.var (.mem m.memId a c.varC) 8) ∧
    a ∈ ({ m with mem := m.mem.set a (.var (.mem m.memId a c.varC) 8) } : SimMemory).mem.keys ∧
    SimMemory.load { m with mem := m.mem.set a (.var (.mem m.memId a c.varC) 8) }
      { c with varC := c.varC + 1 } (.int a) 1 =
      .ok (.var (.mem m.memId a c.varC) 8, [],
        { m with mem := m.mem.set a (.var (.mem m.memId a c.varC) 8) },
        { c with varC := c.varC + 1 }) := by
  refine ⟨?_, BDict.get_set_self _ _ _, ?_, ?_⟩
  · simp [SimMemory.load, SimMemory.read_from, readBytes, h, concatList]
  · rcases m with ⟨⟨layers⟩, lim, bits, mid⟩
    cases layers with
    | nil => simp [BDict.set, BDict.keys]
    | cons l rest => simp [BDict.set, BDict.keys]
  · simp [SimMemory.load, SimMemory.read_from, readBytes, BDict.get_set_self, concatList]

/-- Witness for C10 at address 7 of the empty memory. -/
theorem lazy_read_persists_witness :
    emptyMem.mem.get 7 = none ∧
    emptyMem.load czero (.int 7) 1 =
      .ok (.var (.mem emptyMem.memId 7 czero.varC) 8, [],
        { emptyMem with mem := emptyMem.mem.set 7 (.var (.mem emptyMem.memId 7 czero.varC) 8) },
        { czero with varC := czero.varC + 1 }) ∧
    7 ∈ ({ emptyMem with
      mem := emptyMem.mem.set 7 (.var (.mem emptyMem.memId 7 czero.varC) 8) } : SimMemory).mem.keys :=
  ⟨rfl, (lazy_read_persists emptyMem czero 7 rfl).1,
    (lazy_read_persists emptyMem czero 7 rfl).2.2.1⟩

/-! ## Claim C5: concretization fast path -/

/-- C5: for every strategy list, an address expression that is already a
unique concrete value concretizes to exactly that single value, identically
for every strategy list (no strategy is evaluated, no further solver query
is made); and a plain-integer address bypasses concretization entirely in
both `store` and `load`. -/
theorem concretize_fast_path (m : SimMemory) (v : AddrExpr)
    (hs : (v.isSymbolic && !v.satisfiable) = false) (hu : v.isUnique = true) :
    (∀ strategies, m.concretize_addr v strategies = .ok [v.anyVal]) ∧
    (∀ (a : Nat) (cnt : SymExpr), m.store (.int a) cnt = .ok ([], m.write_to a cnt)) ∧
    (∀ (c : Counters) (a size : Nat),
      m.load c (.int a) size = .ok ((m.read_from c a size).1, [], (m.read_from c a size).2)) := by
  refine ⟨?_, fun a cnt => rfl, fun c a size => rfl⟩
  intro strategies
  simp [SimMemory.concretize_addr, hs, hu]

/-- Witness for C5 at a concrete unique address expression valued 5,
evaluated on both of the strategy orders used by the memory view. -/
theorem concretize_fast_path_witness :
    (sampleUnique.isSymbolic && !sampleUnique.satisfiable) = false ∧
    sampleUnique.isUnique = true ∧
    emptyMem.concretize_addr sampleUnique [.symbolic, .any] = .ok [5] ∧
    emptyMem.concretize_addr sampleUnique [.free, .writeable, .any] = .ok [5] ∧
    emptyMem.store (.int 9) (.val 1 8) = .ok ([], emptyMem.write_to 9 (.val 1 8)) :=
  ⟨rfl, rfl,
    (concretize_fast_path emptyMem sampleUnique rfl rfl).1 [.symbolic, .any],
    (concretize_fast_path emptyMem sampleUnique rfl rfl).1 [.free, .writeable, .any],
    (concretize_fast_path emptyMem sampleUnique rfl rfl).2.1 9 (.val 1 8)⟩

/-! ## Claim C6: read-resolution strategy order -/

/-- C6: for a satisfiable, non-unique symbolic address concretized under
the read order `["symbolic", "any"]`: when `max - min` is below the view's
limit the result is the enumeration `any_n(limit)`, otherwise the
`symbolic` strategy yields nothing and the result is the single arbitrary
value `[any()]`; and `ConcretizationFailure` arises only when no strategy
in the list yields a result — in particular never for the read order. -/
theorem read_strategy_order (m : SimMemory) (v : AddrExpr)
    (hsym : v.isSymbolic = true) (hsat : v.satisfiable = true)
    (hu : v.isUnique = false) :
    (((v.maxVal : Int) - (v.minVal : Int) < (m.limit : Int) →
      m.concretize_read_addr v = .ok (v.anyN m.limit)) ∧
    (¬ (v.maxVal : Int) - (v.minVal : Int) < (m.limit : Int) →
      m.concretize_read_addr v = .ok [v.anyVal])) ∧
    (∀ strategies, m.concretize_addr v strategies = .error .concretizationFailure →
      ∀ s ∈ strategies, strategyResult m v s = none) ∧
    m.concretize_read_addr v ≠ .error .concretizationFailure := by
  have hguard : (v.isSymbolic && !v.satisfiable) = false := by
    rw [hsym, hsat]
    rfl
  have hloop : ∀ strategies, m.concretize_addr v strategies = concretizeLoop m v strategies := by
    intro strategies
    simp [SimMemory.concretize_addr, hguard, hu]
  refine ⟨⟨?_, ?_⟩, ?_, ?_⟩
  · intro hrange
    rw [SimMemory.concretize_read_addr, hloop]
    simp [concretizeLoop, strategyResult, hrange]
  · intro hrange
    rw [SimMemory.concretize_read_addr, hloop]
    simp [concretizeLoop, strategyResult, hrange]
  · intro strategies
    rw [hloop]
    intro hfail
    induction strategies with
    | nil => intro s hs; cases hs
    | cons s0 rest ih =>
      intro s hs
      rw [concretizeLoop] at hfail
      rcases hres : strategyResult m v s0 with _ | r
      · rw [hres] at hfail
        rcases List.mem_cons.mp hs with h | h
        · rwa [h]
        · exact ih hfail s h
      · rw [hres] at hfail
        cases hfail
  · rw [SimMemory.concretize_read_addr, hloop]
    by_cases hrange : (v.maxVal : Int) - (v.minVal : Int) < (m.limit : Int) <;>
      simp [concretizeLoop, strategyResult, hrange]

/-- Witness for C6 at a symbolic address with two satisfying values 4 and
5 (range 1, below the limit 1024): the read order enumerates them. -/
theorem read_strategy_order_witness :
    sampleSym.isSymbolic = true ∧ sampleSym.satisfiable = true ∧
    sampleSym.isUnique = false ∧
    ((sampleSym.maxVal : Int) - (sampleSym.minVal : Int) < (emptyMem.limit : Int)) ∧
    emptyMem.concretize_read_addr sampleSym = .ok [4, 5] :=
  ⟨rfl, rfl, rfl, by decide,
    (read_strategy_order emptyMem sampleSym rfl rfl rfl).1.1 (by decide)⟩

/-! ## Counter-bound (freshness) machinery -/

theorem varBound_mono {vc ac mc vc2 ac2 mc2 : Nat} (h1 : vc ≤ vc2) (h2 : ac ≤ ac2)
    (h3 : mc ≤ mc2) {n : VarName} (h : VarBoundBy vc ac mc n) :
    VarBoundBy vc2 ac2 mc2 n := by
  cases n <;> simp only [VarBoundBy] at h ⊢ <;> omega

theorem exprBound_mono {vc ac mc vc2 ac2 mc2 : Nat} (h1 : vc ≤ vc2) (h2 : ac ≤ ac2)
    (h3 : mc ≤ mc2) {e : SymExpr} (h : ExprBoundBy vc ac mc e) :
    ExprBoundBy vc2 ac2 mc2 e :=
  fun n hn => varBound_mono h1 h2 h3 (h n hn)

theorem dictBound_mono {vc ac mc vc2 ac2 mc2 : Nat} (h1 : vc ≤ vc2) (h2 : ac ≤ ac2)
    (h3 : mc ≤ mc2) {d : BDict} (h : DictBoundBy vc ac mc d) :
    DictBoundBy vc2 ac2 mc2 d :=
  fun l hl p hp => exprBound_mono h1 h2 h3 (h l hl p hp)

theorem memBound_mono {vc ac mc vc2 ac2 mc2 : Nat} (h1 : vc ≤ vc2) (h2 : ac ≤ ac2)
    (h3 : mc ≤ mc2) {m : SimMemory} (h : MemBoundBy vc ac mc m) :
    MemBoundBy vc2 ac2 mc2 m :=
  dictBound_mono h1 h2 h3 h

/-- A layer lookup only returns expressions stored in the layer. -/
theorem layerGet_mem {l : Layer} {k : Nat} {e : SymExpr} (h : l.get k = some e) :
    ∃ p ∈ l, p.2 = e := by
  unfold Layer.get at h
  rcases hf : l.find? (fun p => p.1 == k) with _ | p
  · rw [hf] at h
    cases h
  · rw [hf] at h
    refine ⟨p, List.mem_of_find?_eq_some hf, ?_⟩
    simpa using h

/-- A dictionary lookup only returns expressions stored in some layer. -/
theorem bdictGet_mem {d : BDict} {k : Nat} {e : SymExpr} (h : d.get k = some e) :
    ∃ l ∈ d.layers, ∃ p ∈ l, p.2 = e := by
  rcases d with ⟨layers⟩
  unfold BDict.get at h
  induction layers with
  | nil => cases h
  | cons l0 rest ih =>
    rw [List.findSome?_cons] at h
    rcases hg : l0.get k with _ | e0
    · rw [hg] at h
      obtain ⟨l, hl, hp⟩ := ih h
      exact ⟨l, List.mem_cons_of_mem _ hl, hp⟩
    · rw [hg] at h
      cases h
      obtain ⟨p, hp, hpe⟩ := layerGet_mem hg
      exact ⟨l0, List.mem_cons_self _ _, p, hp, hpe⟩

/-- Looked-up expressions inherit the dictionary's bound. -/
theorem DictBoundBy.get {vc ac mc : Nat} {d : BDict} (hd : DictBoundBy vc ac mc d)
    {k : Nat} {e : SymExpr} (h : d.get k = some e) : ExprBoundBy vc ac mc e := by
  obtain ⟨l, hl, p, hp, hpe⟩ := bdictGet_mem h
  have := hd l hl p hp
  rwa [hpe] at this

/-- Writing a bounded expression preserves the dictionary bound. -/
theorem DictBoundBy.set {vc ac mc : Nat} {d : BDict} (hd : DictBoundBy vc ac mc d)
    {k : Nat} {e : SymExpr} (he : ExprBoundBy vc ac mc e) :
    DictBoundBy vc ac mc (d.set k e) := by
  rcases d with ⟨layers⟩
  cases layers with
  | nil =>
    intro l hl p hp
    simp only [BDict.set] at hl
    rcases List.mem_singleton.mp hl with rfl
    rcases List.mem_singleton.mp hp with rfl
    exact he
  | cons l0 rest =>
    intro l hl p hp
    simp only [BDict.set] at hl
    rcases List.mem_cons.mp hl with rfl | hl
    · rcases List.mem_cons.mp hp with rfl | hp
      · exact he
      · exact hd l0 (List.mem_cons_self _ _) p hp
    · exact hd l (List.mem_cons_of_mem _ hl) p hp

/-- The full behavioral summary of the byte-reading loop needed by the
merge and ambiguous-load proofs: bounds are preserved (with only the
byte-materialization counter growing), the produced byte expressions are
bounded, the other two counters are untouched, lookups outside the read
range are untouched, and the administrative fields survive. -/
theorem readBytes_bound (n : Nat) : ∀ (m : SimMemory) (c : Counters) (addr : Nat)
    (ac mc : Nat), MemBoundBy c.varC ac mc m →
    MemBoundBy (readBytes m c addr n).2.2.varC ac mc (readBytes m c addr n).2.1 ∧
    (∀ e ∈ (readBytes m c addr n).1, ExprBoundBy (readBytes m c addr n).2.2.varC ac mc e) ∧
    c.varC ≤ (readBytes m c addr n).2.2.varC ∧
    (readBytes m c addr n).2.2.addrC = c.addrC ∧
    (readBytes m c addr n).2.2.mergeC = c.mergeC ∧
    (∀ b, b < addr ∨ addr + n ≤ b → (readBytes m c addr n).2.1.mem.get b = m.mem.get b) ∧
    (readBytes m c addr n).2.1.memId = m.memId ∧
    (readBytes m c addr n).2.1.limit = m.limit ∧
    (readBytes m c addr n).2.1.bits = m.bits := by
  induction n with
  | zero =>
    intro m c addr ac mc hm
    refine ⟨hm, ?_, Nat.le_refl _, rfl, rfl, fun b _ => rfl, rfl, rfl, rfl⟩
    intro e he
    simp [readBytes] at he
  | succ k ih =>
    intro m c addr ac mc hm
    rcases hget : m.mem.get addr with _ | b0
    · -- byte missing: materialize, then read the rest
      have hm1 : MemBoundBy (c.varC + 1) ac mc
          { m with mem := m.mem.set addr (.var (.mem m.memId addr c.varC) 8) } := by
        apply DictBoundBy.set (memBound_mono (Nat.le_succ _) (Nat.le_refl _) (Nat.le_refl _) hm)
        intro nm hnm
        rcases List.mem_singleton.mp hnm with rfl
        show c.varC < c.varC + 1
        omega
      have hrec := ih { m with mem := m.mem.set addr (.var (.mem m.memId addr c.varC) 8) }
        { c with varC := c.varC + 1 } (addr + 1) ac mc hm1
      have hunf : readBytes m c addr (Nat.succ k) =
          ((SymExpr.var (.mem m.memId addr c.varC) 8) ::
            (readBytes { m with mem := m.mem.set addr (.var (.mem m.memId addr c.varC) 8) }
              { c with varC := c.varC + 1 } (addr + 1) k).1,
            (readBytes { m with mem := m.mem.set addr (.var (.mem m.memId addr c.varC) 8) }
              { c with varC := c.varC + 1 } (addr + 1) k).2) := by
        rw [readBytes, hget]
      rw [hunf]
      obtain ⟨h1, h2, h3, h4, h5, h6, h7, h8, h9⟩ := hrec
      have h3' : c.varC + 1 ≤
          (readBytes { m with mem := m.mem.set addr (.var (.mem m.memId addr c.varC) 8) }
            { c with varC := c.varC + 1 } (addr + 1) k).2.2.varC := h3
      refine ⟨h1, ?_, Nat.le_of_succ_le h3', h4, h5, ?_, h7, h8, h9⟩
      · intro e he
        rcases List.mem_cons.mp he with rfl | he
        · intro nm hnm
          rcases List.mem_singleton.mp hnm with rfl
          exact Nat.lt_of_succ_le h3'
        · exact h2 e he
      · intro b hb
        rw [h6 b (by omega)]
        show ({ m with mem := m.mem.set addr (.var (.mem m.memId addr c.varC) 8) } :
          SimMemory).mem.get b = m.mem.get b
        exact BDict.get_set_ne _ _ _ _ (by omega)
    · -- byte present
      have hrec := ih m c (addr + 1) ac mc hm
      have hunf : readBytes m c addr (Nat.succ k) =
          (b0 :: (readBytes m c (addr + 1) k).1, (readBytes m c (addr + 1) k).2) := by
        rw [readBytes, hget]
      rw [hunf]
      obtain ⟨h1, h2, h3, h4, h5, h6, h7, h8, h9⟩ := hrec
      refine ⟨h1, ?_, h3, h4, h5, ?_, h7, h8, h9⟩
      · intro e he
        rcases List.mem_cons.mp he with rfl | he
        · exact exprBound_mono h3 (Nat.le_refl _) (Nat.le_refl _) (DictBoundBy.get hm hget)
        · exact h2 e he
      · intro b hb
        exact h6 b (by omega)

/-- A fold of writes of bounded expressions preserves the dictionary
bound. -/
theorem DictBoundBy.foldl_set {vc ac mc : Nat} (l : List Nat) (key : Nat → Nat)
    (f : Nat → SymExpr) : ∀ d : BDict, DictBoundBy vc ac mc d →
    (∀ i ∈ l, ExprBoundBy vc ac mc (f i)) →
    DictBoundBy vc ac mc (l.foldl (fun dd i => dd.set (key i) (f i)) d) := by
  induction l with
  | nil => intro d hd _; exact hd
  | cons a t ih =>
    intro d hd hf
    simp only [List.foldl_cons]
    exact ih _ (hd.set (hf a (List.mem_cons_self _ _)))
      (fun i hi => hf i (List.mem_cons_of_mem _ hi))

/-- `write_to` of a bounded expression preserves the memory bound. -/
theorem MemBoundBy.write_to {vc ac mc : Nat} {m : SimMemory} (hm : MemBoundBy vc ac mc m)
    (addr : Nat) {cnt : SymExpr} (hc : ExprBoundBy vc ac mc cnt) :
    MemBoundBy vc ac mc (m.write_to addr cnt) := by
  rw [write_to_eq]
  show DictBoundBy vc ac mc (writeFold addr cnt m.mem)
  unfold writeFold
  apply DictBoundBy.foldl_set _ _ _ _ hm
  intro i _
  intro nm hnm
  exact hc nm hnm

/-- Bounded expressions cannot contain the ambiguous-load variable at the
current counter (freshness). -/
theorem addrv_not_mem_of_bound {vc ac mc : Nat} {e : SymExpr}
    (h : ExprBoundBy vc ac mc e) (id : String) : VarName.addrv id ac ∉ e.vars :=
  fun hmem => absurd (h _ hmem) (Nat.lt_irrefl ac)

/-- Bounded expressions cannot contain the merged-byte variable at the
current counter (freshness). -/
theorem mergev_not_mem_of_bound {vc ac mc : Nat} {e : SymExpr}
    (h : ExprBoundBy vc ac mc e) (id : String) (a : Nat) :
    VarName.merge id a mc ∉ e.vars :=
  fun hmem => absurd (h _ hmem) (Nat.lt_irrefl mc)

/-- Bytes read out of a bounded memory are bounded after concatenation. -/
theorem concatList_bound {vc ac mc : Nat} (xs : List SymExpr)
    (h : ∀ x ∈ xs, ExprBoundBy vc ac mc x) : ExprBoundBy vc ac mc (concatList xs) := by
  induction xs with
  | nil => intro nm hnm; cases hnm
  | cons x t ih =>
    cases t with
    | nil =>
      intro nm hnm
      exact h x (List.mem_cons_self _ _) nm hnm
    | cons y ts =>
      intro nm hnm
      show VarBoundBy vc ac mc nm
      have hnm2 : nm ∈ x.vars ++ (concatList (y :: ts)).vars := hnm
      rcases List.mem_append.mp hnm2 with hx | hrest
      · exact h x (List.mem_cons_self _ _) nm hx
      · exact ih (fun z hz => h z (List.mem_cons_of_mem _ hz)) nm hrest

/-- A one-byte read of a present address returns exactly the stored
expression (s_memory.py:56, 64-65). -/
theorem read_from_one_present (m : SimMemory) (c : Counters) (a : Nat) (b : SymExpr)
    (h : m.mem.get a = some b) : (m.read_from c a 1).1 = b := by
  simp [SimMemory.read_from, readBytes, h, concatList]

/-- A one-byte read of an absent address returns the freshly materialized
unconstrained byte named after the memory, the address and the current
counter (s_memory.py:57-62). -/
theorem read_from_one_absent (m : SimMemory) (c : Counters) (a : Nat)
    (h : m.mem.get a = none) :
    (m.read_from c a 1).1 = .var (.mem m.memId a c.varC) 8 := by
  simp [SimMemory.read_from, readBytes, h, concatList]

/-- Reading never overwrites an existing entry: a byte that is present
stays bound to the same expression across any `read_from`
(materialization only fills absent addresses, s_memory.py:57-61). -/
theorem readBytes_keeps (n : Nat) : ∀ (m : SimMemory) (c : Counters) (addr a : Nat)
    (b : SymExpr), m.mem.get a = some b →
    (readBytes m c addr n).2.1.mem.get a = some b := by
  induction n with
  | zero => intro m c addr a b h; exact h
  | succ k ih =>
    intro m c addr a b h
    rcases hget : m.mem.get addr with _ | b0
    · have hne : a ≠ addr := by
        intro he
        rw [he, hget] at h
        cases h
      have hunf : readBytes m c addr (Nat.succ k) =
          ((SymExpr.var (.mem m.memId addr c.varC) 8) ::
            (readBytes { m with mem := m.mem.set addr (.var (.mem m.memId addr c.varC) 8) }
              { c with varC := c.varC + 1 } (addr + 1) k).1,
            (readBytes { m with mem := m.mem.set addr (.var (.mem m.memId addr c.varC) 8) }
              { c with varC := c.varC + 1 } (addr + 1) k).2) := by
        rw [readBytes, hget]
      rw [hunf]
      apply ih
      show (m.mem.set addr (.var (.mem m.memId addr c.varC) 8)).get a = some b
      rw [BDict.get_set_ne _ _ _ _ hne]
      exact h
    · have hunf : readBytes m c addr (Nat.succ k) =
          (b0 :: (readBytes m c (addr + 1) k).1, (readBytes m c (addr + 1) k).2) := by
        rw [readBytes, hget]
      rw [hunf]
      exact ih m c (addr + 1) a b h

/-- Behavioral summary of the ambiguous-load constraint comprehension
(s_memory.py:153): the produced constraints pair each candidate address, in
order, with the value read there — whenever all of a candidate's bytes are
stored, that value is exactly the concatenation of the stored bytes; the
values are bounded, present entries are kept, and the ambiguous-load
counter is untouched by the reads. -/
theorem loadDisjuncts_spec (mv ve : SymExpr) (size : Nat) (addrs : List Nat) :
    ∀ (m : SimMemory) (c : Counters) (acc : List Constr) (ac mc : Nat),
    MemBoundBy c.varC ac mc m →
    ∃ vals : List SymExpr,
      vals.length = addrs.length ∧
      (loadDisjuncts mv ve size addrs (acc, m, c)).1 =
        acc ++ (vals.zip addrs).map (fun p => Constr.conj [.eq mv p.1, eqInt ve p.2]) ∧
      (∀ e ∈ vals, ExprBoundBy (loadDisjuncts mv ve size addrs (acc, m, c)).2.2.varC ac mc e) ∧
      MemBoundBy (loadDisjuncts mv ve size addrs (acc, m, c)).2.2.varC ac mc
        (loadDisjuncts mv ve size addrs (acc, m, c)).2.1 ∧
      c.varC ≤ (loadDisjuncts mv ve size addrs (acc, m, c)).2.2.varC ∧
      (loadDisjuncts mv ve size addrs (acc, m, c)).2.2.addrC = c.addrC ∧
      (loadDisjuncts mv ve size addrs (acc, m, c)).2.2.mergeC = c.mergeC ∧
      (∀ (a : Nat) (b : SymExpr), m.mem.get a = some b →
        (loadDisjuncts mv ve size addrs (acc, m, c)).2.1.mem.get a = some b) ∧
      (∀ k, k < addrs.length → ∀ f : Nat → SymExpr,
        (∀ j, j < size → m.mem.get (addrs.getD k 0 + j) = some (f j)) →
        vals.getD k (.val 0 0) = concatList ((List.range size).map f)) := by
  induction addrs with
  | nil =>
    intro m c acc ac mc hm
    exact ⟨[], rfl, by simp [loadDisjuncts], (by intro e he; cases he), hm,
      Nat.le_refl _, rfl, rfl, (fun a b h => h), (by intro k hk; cases hk)⟩
  | cons a t ih =>
    intro m c acc ac mc hm
    obtain ⟨hb1, hb2, hb3, hb4, hb5, hb6, hb7, hb8, hb9⟩ :=
      readBytes_bound size m c a ac mc hm
    have hstep : loadDisjuncts mv ve size (a :: t) (acc, m, c) =
        loadDisjuncts mv ve size t
          (acc ++ [Constr.conj [.eq mv (m.read_from c a size).1, eqInt ve a]],
            (m.read_from c a size).2) := by
      rfl
    have hmb : MemBoundBy (m.read_from c a size).2.2.varC ac mc (m.read_from c a size).2.1 := hb1
    have hkeep1 : ∀ (a2 : Nat) (b : SymExpr), m.mem.get a2 = some b →
        (m.read_from c a size).2.1.mem.get a2 = some b := fun a2 b h =>
      readBytes_keeps size m c a a2 b h
    obtain ⟨vals, hv1, hv2, hv3, hv4, hv5, hv6, hv7, hv8, hv9⟩ :=
      ih (m.read_from c a size).2.1 (m.read_from c a size).2.2
        (acc ++ [Constr.conj [.eq mv (m.read_from c a size).1, eqInt ve a]]) ac mc hmb
    refine ⟨(m.read_from c a size).1 :: vals, by simp [hv1], ?_, ?_, ?_, ?_, ?_, ?_, ?_, ?_⟩
    · rw [hstep, hv2]
      simp [List.zip_cons_cons]
    · intro e he
      rcases List.mem_cons.mp he with rfl | he
      · have hcb : ExprBoundBy (m.read_from c a size).2.2.varC ac mc
            (m.read_from c a size).1 := concatList_bound _ hb2
        rw [hstep]
        exact exprBound_mono hv5 (Nat.le_refl _) (Nat.le_refl _) hcb
      · rw [hstep]
        exact hv3 e he
    · rw [hstep]
      exact hv4
    · rw [hstep]
      exact Nat.le_trans hb3 hv5
    · rw [hstep, hv6]
      exact hb4
    · rw [hstep, hv7]
      exact hb5
    · intro a2 b h
      rw [hstep]
      exact hv8 a2 b (hkeep1 a2 b h)
    · intro k hk f hf
      cases k with
      | zero =>
        rw [List.getD_cons_zero]
        have hf0 : ∀ j, j < size → m.mem.get (a + j) = some (f j) := by
          intro j hj
          have := hf j hj
          rwa [List.getD_cons_zero] at this
        have hbytes := readBytes_all_present size m c a f hf0
        show (m.read_from c a size).1 = concatList ((List.range size).map f)
        show concatList (readBytes m c a size).1 = _
        rw [hbytes]
      | succ k2 =>
        have hk2 : k2 < t.length := by
          simp at hk
          omega
        rw [List.getD_cons_succ]
        apply hv9 k2 hk2 f
        intro j hj
        have := hf j hj
        rw [List.getD_cons_succ] at this
        exact hkeep1 _ _ this

/-! ## Claim C3: ambiguous read disjunction -/

/-- C3: for a `load` whose address concretizes to more than one candidate,
the result is a fresh symbolic expression `m` of width `size*8` together
with exactly one constraint, the disjunction over all candidates `c` of
`(m == value stored at c) AND (address_expr == c)` — whenever candidate
`c`'s bytes are stored, the value paired with `c` is exactly the big-endian
concatenation of the bytes stored at `c` (otherwise it contains the lazily
materialized fresh bytes); with exactly one candidate, the result is the
bytes at that candidate with the single constraint
`address_expr == candidate`. -/
theorem ambiguous_read_disjunction (m : SimMemory) (c : Counters) (v : AddrExpr)
    (size : Nat) (hu : v.isUnique = false) (addrs : List Nat)
    (hc : m.concretize_read_addr v = .ok addrs)
    (Hm : MemBoundBy c.varC c.addrC c.mergeC m)
    (Hv : ExprBoundBy c.varC c.addrC c.mergeC v.expr) :
    (∀ a, addrs = [a] →
      m.load c (.sym v) size =
        .ok ((m.read_from c a size).1, [eqInt v.expr a], (m.read_from c a size).2)) ∧
    (2 ≤ addrs.length →
      ∃ (vals : List SymExpr) (m2 : SimMemory) (c2 : Counters),
        vals.length = addrs.length ∧
        m.load c (.sym v) size =
          .ok (.var (.addrv m.memId c.addrC) (size * 8),
            [Constr.disj ((vals.zip addrs).map (fun p =>
              Constr.conj [.eq (.var (.addrv m.memId c.addrC) (size * 8)) p.1,
                eqInt v.expr p.2]))], m2, c2) ∧
        (SymExpr.var (.addrv m.memId c.addrC) (size * 8)).size = size * 8 ∧
        VarName.addrv m.memId c.addrC ∉ v.expr.vars ∧
        (∀ e ∈ vals, VarName.addrv m.memId c.addrC ∉ e.vars) ∧
        ∀ k, k < addrs.length → ∀ f : Nat → SymExpr,
          (∀ j, j < size → m.mem.get (addrs.getD k 0 + j) = some (f j)) →
          vals.getD k (.val 0 0) = concatList ((List.range size).map f)) := by
  constructor
  · intro a ha
    subst ha
    simp [SimMemory.load, hu, hc]
  · intro hlen
    have Hm0 : MemBoundBy ({ c with addrC := c.addrC + 1 } : Counters).varC c.addrC c.mergeC m := Hm
    obtain ⟨vals, hv1, hv2, hv3, hv4, hv5, hv6, hv7, hv8, hv9⟩ :=
      loadDisjuncts_spec (.var (.addrv m.memId c.addrC) (size * 8)) v.expr size addrs
        m { c with addrC := c.addrC + 1 } [] c.addrC c.mergeC Hm0
    refine ⟨vals,
      (loadDisjuncts (.var (.addrv m.memId c.addrC) (size * 8)) v.expr size addrs
        ([], m, { c with addrC := c.addrC + 1 })).2.1,
      (loadDisjuncts (.var (.addrv m.memId c.addrC) (size * 8)) v.expr size addrs
        ([], m, { c with addrC := c.addrC + 1 })).2.2,
      hv1, ?_, rfl, addrv_not_mem_of_bound Hv m.memId, ?_, hv9⟩
    · rcases addrs with _ | ⟨a1, _ | ⟨a2, rest⟩⟩
      · simp at hlen
      · simp at hlen
      · simp only [SimMemory.load, hu, hc]
        rw [hv2]
        simp
    · intro e he
      exact addrv_not_mem_of_bound (hv3 e he) m.memId

/-- Witness for C3: over `twoMem` (byte 17 stored at 4, byte 34 stored at
5) the address `sampleSym` concretizes to the two candidates 4 and 5, and
the ambiguous load produces the single disjunctive constraint pairing
candidate 4 with the stored value 17 and candidate 5 with the stored value
34. -/
theorem ambiguous_read_disjunction_witness :
    sampleSym.isUnique = false ∧
    twoMem.concretize_read_addr sampleSym = .ok [4, 5] ∧
    MemBoundBy cone.varC cone.addrC cone.mergeC twoMem ∧
    ExprBoundBy cone.varC cone.addrC cone.mergeC sampleSym.expr ∧
    twoMem.mem.get 4 = some (.val 17 8) ∧
    twoMem.mem.get 5 = some (.val 34 8) ∧
    ∃ (vals : List SymExpr) (m2 : SimMemory) (c2 : Counters),
      vals.length = ([4, 5] : List Nat).length ∧
      vals.getD 0 (.val 0 0) = .val 17 8 ∧
      vals.getD 1 (.val 0 0) = .val 34 8 ∧
      twoMem.load cone (.sym sampleSym) 1 =
        .ok (.var (.addrv twoMem.memId cone.addrC) (1 * 8),
          [Constr.disj ((vals.zip [4, 5]).map (fun p =>
            Constr.conj [.eq (.var (.addrv twoMem.memId cone.addrC) (1 * 8)) p.1,
              eqInt sampleSym.expr p.2]))], m2, c2) ∧
      (SymExpr.var (.addrv twoMem.memId cone.addrC) (1 * 8)).size = 1 * 8 ∧
      VarName.addrv twoMem.memId cone.addrC ∉ sampleSym.expr.vars ∧
      (∀ e ∈ vals, VarName.addrv twoMem.memId cone.addrC ∉ e.vars) := by
  refine ⟨rfl, rfl, by decide, by decide, rfl, rfl, ?_⟩
  obtain ⟨vals, m2, c2, hv1, hv2, hv3, hv4, hv5, hv6⟩ :=
    (ambiguous_read_disjunction twoMem cone sampleSym 1 rfl [4, 5] rfl
      (by decide) (by decide)).2 (by decide)
  have h17 : vals.getD 0 (.val 0 0) = .val 17 8 := by
    have := hv6 0 (by decide) (fun _ => .val 17 8) (by
      intro j hj
      have hj0 : j = 0 := by omega
      subst hj0
      rfl)
    exact this
  have h34 : vals.getD 1 (.val 0 0) = .val 34 8 := by
    have := hv6 1 (by decide) (fun _ => .val 34 8) (by
      intro j hj
      have hj0 : j = 0 := by omega
      subst hj0
      rfl)
    exact this
  exact ⟨vals, m2, c2, hv1, h17, h34, hv2, hv3, hv4, hv5⟩

/-! ## Claim C2: write isolation across branches -/

/-- A fresh empty head layer does not change any lookup. -/
theorem BDict.get_branch_layer (d : BDict) (k : Nat) :
    (⟨[] :: d.layers⟩ : BDict).get k = d.get k := by
  rcases d with ⟨layers⟩
  simp [BDict.get, List.findSome?_cons, Layer.get]

/-- Reading is determined by the lookup table and the memory id: two
memories that agree on every lookup produce the same byte expressions, the
same counters, and again-agreeing memories. -/
theorem readBytes_congr (n : Nat) : ∀ (m m2 : SimMemory) (c : Counters) (addr : Nat),
    (∀ b, m.mem.get b = m2.mem.get b) → m.memId = m2.memId →
    (readBytes m c addr n).1 = (readBytes m2 c addr n).1 ∧
    (readBytes m c addr n).2.2 = (readBytes m2 c addr n).2.2 ∧
    (∀ b, (readBytes m c addr n).2.1.mem.get b = (readBytes m2 c addr n).2.1.mem.get b) ∧
    (readBytes m c addr n).2.1.memId = (readBytes m2 c addr n).2.1.memId := by
  induction n with
  | zero => intro m m2 c addr hg hid; exact ⟨rfl, rfl, hg, hid⟩
  | succ k ih =>
    intro m m2 c addr hg hid
    rcases hget : m.mem.get addr with _ | b0
    · have hget2 : m2.mem.get addr = none := by rw [← hg, hget]
      have hunf : readBytes m c addr (Nat.succ k) =
          ((SymExpr.var (.mem m.memId addr c.varC) 8) ::
            (readBytes { m with mem := m.mem.set addr (.var (.mem m.memId addr c.varC) 8) }
              { c with varC := c.varC + 1 } (addr + 1) k).1,
            (readBytes { m with mem := m.mem.set addr (.var (.mem m.memId addr c.varC) 8) }
              { c with varC := c.varC + 1 } (addr + 1) k).2) := by
        rw [readBytes, hget]
      have hunf2 : readBytes m2 c addr (Nat.succ k) =
          ((SymExpr.var (.mem m2.memId addr c.varC) 8) ::
            (readBytes { m2 with mem := m2.mem.set addr (.var (.mem m2.memId addr c.varC) 8) }
              { c with varC := c.varC + 1 } (addr + 1) k).1,
            (readBytes { m2 with mem := m2.mem.set addr (.var (.mem m2.memId addr c.varC) 8) }
              { c with varC := c.varC + 1 } (addr + 1) k).2) := by
        rw [readBytes, hget2]
      have hga : ∀ b, ({ m with mem := m.mem.set addr (.var (.mem m.memId addr c.varC) 8) } :
          SimMemory).mem.get b =
          ({ m2 with mem := m2.mem.set addr (.var (.mem m2.memId addr c.varC) 8) } :
          SimMemory).mem.get b := by
        intro b
        show (m.mem.set addr (.var (.mem m.memId addr c.varC) 8)).get b =
          (m2.mem.set addr (.var (.mem m2.memId addr c.varC) 8)).get b
        rw [hid]
        by_cases hb : b = addr
        · subst hb
          rw [BDict.get_set_self, BDict.get_set_self]
        · rw [BDict.get_set_ne _ _ _ _ hb, BDict.get_set_ne _ _ _ _ hb]
          exact hg b
      have hrec := ih { m with mem := m.mem.set addr (.var (.mem m.memId addr c.varC) 8) }
        { m2 with mem := m2.mem.set addr (.var (.mem m2.memId addr c.varC) 8) }
        { c with varC := c.varC + 1 } (addr + 1) hga hid
      rw [hunf, hunf2]
      exact ⟨by rw [hrec.1, hid], hrec.2.1, hrec.2.2.1, hrec.2.2.2⟩
    · have hget2 : m2.mem.get addr = some b0 := by rw [← hg, hget]
      have hunf : readBytes m c addr (Nat.succ k) =
          (b0 :: (readBytes m c (addr + 1) k).1, (readBytes m c (addr + 1) k).2) := by
        rw [readBytes, hget]
      have hunf2 : readBytes m2 c addr (Nat.succ k) =
          (b0 :: (readBytes m2 c (addr + 1) k).1, (readBytes m2 c (addr + 1) k).2) := by
        rw [readBytes, hget2]
      have hrec := ih m m2 c (addr + 1) hg hid
      rw [hunf, hunf2]
      exact ⟨by rw [hrec.1], hrec.2.1, hrec.2.2.1, hrec.2.2.2⟩

/-- C2: after `v2 = v1.copy()`, both views share every entry of the branch
point; a store of `X` through `v2` commits into `v2` only: every lookup
through `v1`'s view is exactly as before the branch (in particular at the
written address, so `v1.load(A, 1)` is unaffected by `X`), and entries
outside the written range remain shared between `v1` and the stored-into
`v2`. -/
theorem write_isolation (v1 : SimMemory) (A : Nat) (X : SymExpr) (c : Counters) :
    (∀ b, (v1.copy).1.mem.get b = v1.mem.get b) ∧
    (∀ b, (v1.copy).2.mem.get b = v1.mem.get b) ∧
    ((v1.copy).2.store (.int A) X = .ok ([], (v1.copy).2.write_to A X)) ∧
    (∀ b, b < A ∨ A + (X.size + 7) / 8 ≤ b →
      ((v1.copy).2.write_to A X).mem.get b = v1.mem.get b) ∧
    (∀ n, ((v1.copy).1.read_from c A n).1 = (v1.read_from c A n).1) := by
    have hshare : ∀ b, (v1.copy).1.mem.get b = v1.mem.get b := by
      intro b
      show (⟨[] :: v1.mem.layers⟩ : BDict).get b = v1.mem.get b
      exact BDict.get_branch_layer v1.mem b
    have hshare2 : ∀ b, (v1.copy).2.mem.get b = v1.mem.get b := by
      intro b
      show (⟨[] :: v1.mem.layers⟩ : BDict).get b = v1.mem.get b
      exact BDict.get_branch_layer v1.mem b
    refine ⟨hshare, hshare2, rfl, ?_, ?_⟩
    · intro b hb
      rw [write_to_get_outside _ _ _ _ hb]
      exact hshare2 b
    · intro n
      have hcongr := readBytes_congr n (v1.copy).1 v1 c A hshare rfl
      show concatList (readBytes (v1.copy).1 c A n).1 = concatList (readBytes v1 c A n).1
      rw [hcongr.1]

/-- Witness for C2 over the two-byte sample memory: branching and storing
through the copy at address 4 leaves the parent's lookups and reads
untouched, address 5 still shared. -/
theorem write_isolation_witness :
    ((twoMem.copy).1.mem.get 4 = twoMem.mem.get 4) ∧
    ((twoMem.copy).2.store (.int 4) (.val 99 8) =
      .ok ([], (twoMem.copy).2.write_to 4 (.val 99 8))) ∧
    ((5 : Nat) < 4 ∨ 4 + ((SymExpr.val 99 8).size + 7) / 8 ≤ 5) ∧
    (((twoMem.copy).2.write_to 4 (.val 99 8)).mem.get 5 = twoMem.mem.get 5) ∧
    (((twoMem.copy).1.read_from cone 4 1).1 = (twoMem.read_from cone 4 1).1) :=
  ⟨(write_isolation twoMem 4 (.val 99 8) cone).1 4,
    (write_isolation twoMem 4 (.val 99 8) cone).2.2.1,
    by decide,
    (write_isolation twoMem 4 (.val 99 8) cone).2.2.2.1 5 (by decide),
    (write_isolation twoMem 4 (.val 99 8) cone).2.2.2.2 1⟩

/-! ## Semantic selection by the merge constraint -/

/-- Satisfying the merge disjunction for one byte while fixing the flag to
the `i`-th flag value forces the merged variable to evaluate to the `i`-th
alternative (the flag values being pairwise distinct at the flag's
width). -/
theorem merge_constraint_select (flag mv : SymExpr) (alts : List SymExpr)
    (fvs : List Nat) (hlen : alts.length = fvs.length) (i : Nat)
    (hi : i < fvs.length)
    (hdist : fvs.Pairwise (fun a b => a % 2 ^ flag.size ≠ b % 2 ^ flag.size))
    (ρ : VarName → Nat)
    (hsat : evalC ρ (.disj ((alts.zip fvs).map
      (fun p => Constr.conj [eqInt flag p.2, .eq mv p.1]))) = true)
    (hflag : evalE ρ flag = fvs.getD i 0 % 2 ^ flag.size) :
    evalE ρ mv = evalE ρ (alts.getD i (.val 0 0)) := by
  have hsat2 : evalCAny ρ ((alts.zip fvs).map
      (fun p => Constr.conj [eqInt flag p.2, .eq mv p.1])) = true := hsat
  obtain ⟨cstr, hmem, hceval⟩ := (evalCAny_iff ρ _).mp hsat2
  obtain ⟨p, hp, rfl⟩ := List.mem_map.mp hmem
  obtain ⟨j, hj, hpj⟩ := List.getElem_of_mem hp
  have hjl : j < alts.length := by
    rw [List.length_zip] at hj
    omega
  have hjf : j < fvs.length := by
    rw [List.length_zip] at hj
    omega
  have hpj2 : p = (alts[j], fvs[j]) := by
    rw [← hpj, List.getElem_zip]
  subst hpj2
  have hall : evalCAll ρ [eqInt flag (fvs[j]), Constr.eq mv (alts[j])] = true := hceval
  have h1 := (evalCAll_iff ρ _).mp hall (eqInt flag (fvs[j])) (by simp)
  have h2 := (evalCAll_iff ρ _).mp hall (Constr.eq mv (alts[j])) (by simp)
  have h1e : (evalE ρ flag == evalE ρ (.val (fvs[j]) flag.size)) = true := h1
  have h2e : (evalE ρ mv == evalE ρ (alts[j])) = true := h2
  have h1v : evalE ρ flag = fvs[j] % 2 ^ flag.size := by
    have := beq_iff_eq.mp h1e
    simpa [evalE] using this
  have h2v : evalE ρ mv = evalE ρ (alts[j]) := beq_iff_eq.mp h2e
  have hij : i = j := by
    by_contra hne
    have hmod : fvs[i] % 2 ^ flag.size = fvs[j] % 2 ^ flag.size := by
      rw [← List.getD_eq_getElem fvs 0 hi, ← hflag, h1v]
    rcases Nat.lt_or_ge i j with hlt | hge
    · exact List.pairwise_iff_getElem.mp hdist i j hi hjf hlt hmod
    · have hlt2 : j < i := by omega
      exact List.pairwise_iff_getElem.mp hdist j i hjf hi hlt2 hmod.symm
  subst hij
  rw [h2v, List.getD_eq_getElem alts _ (by omega)]

/-! ## The canonical set representation is duplicate-free -/

theorem insertSorted_perm (x : Nat) (l : List Nat) : (insertSorted x l).Perm (x :: l) := by
  induction l with
  | nil => exact List.Perm.refl _
  | cons y t ih =>
    unfold insertSorted
    by_cases hxy : x ≤ y
    · simp only [hxy, if_true]
      exact List.Perm.refl _
    · simp only [hxy, if_false]
      exact (ih.cons y).trans (List.Perm.swap x y t)

theorem sortNat_perm (l : List Nat) : (sortNat l).Perm l := by
  induction l with
  | nil => exact List.Perm.refl _
  | cons x t ih =>
    show (insertSorted x (sortNat t)).Perm (x :: t)
    exact (insertSorted_perm x (sortNat t)).trans (ih.cons x)

theorem canonSet_nodup (l : List Nat) : (canonSet l).Nodup :=
  ((sortNat_perm l.dedup).nodup_iff).mpr (List.nodup_dedup l)

/-! ## Behavioral summaries of the merge loop -/

/-- A single-byte `write_to` stores `Extract(7, 0, e)` at the address. -/
theorem write_to_byte (m : SimMemory) (a : Nat) (e : SymExpr) (he : e.size = 8) :
    m.write_to a e = { m with mem := m.mem.set a (.extract 7 0 e) } := by
  rw [write_to_eq]
  have h : writeFold a e m.mem = m.mem.set a (.extract 7 0 e) := by
    unfold writeFold
    rw [he]
    rfl
  rw [h]

/-- The alternatives-collection loop of the merge: appends one value per
other state (each read from that state at the address, in order), preserves
the ambiguous-load and merge counters, and keeps everything bounded; the
`i`-th appended value is the byte stored at the address in the `i`-th other
state (or a fresh materialized memory variable of that state when absent),
and the `i`-th updated state agrees with the `i`-th other state everywhere
but at the read address. -/
theorem mergeAlts_spec (addr : Nat) (others : List SimMemory) :
    ∀ (vals0 : List SymExpr) (sts0 : List SimMemory) (c : Counters) (ac : Nat),
    (∀ o ∈ others, MemBoundBy c.varC ac c.mergeC o) →
    ∃ (vals : List SymExpr) (sts : List SimMemory),
      (mergeAlts addr others (vals0, sts0, c)).1 = vals0 ++ vals ∧
      (mergeAlts addr others (vals0, sts0, c)).2.1 = sts0 ++ sts ∧
      vals.length = others.length ∧
      sts.length = others.length ∧
      (∀ e ∈ vals, ExprBoundBy (mergeAlts addr others (vals0, sts0, c)).2.2.varC ac c.mergeC e) ∧
      (∀ o ∈ sts, MemBoundBy (mergeAlts addr others (vals0, sts0, c)).2.2.varC ac c.mergeC o) ∧
      c.varC ≤ (mergeAlts addr others (vals0, sts0, c)).2.2.varC ∧
      (mergeAlts addr others (vals0, sts0, c)).2.2.addrC = c.addrC ∧
      (mergeAlts addr others (vals0, sts0, c)).2.2.mergeC = c.mergeC ∧
      ∀ i, i < others.length →
        (∀ b, (others.getD i emptyMem).mem.get addr = some b →
          vals.getD i (.val 0 0) = b) ∧
        ((others.getD i emptyMem).mem.get addr = none →
          ∃ vctr, vals.getD i (.val 0 0) =
            .var (.mem (others.getD i emptyMem).memId addr vctr) 8) ∧
        (∀ b2, b2 ≠ addr →
          (sts.getD i emptyMem).mem.get b2 = (others.getD i emptyMem).mem.get b2) ∧
        (sts.getD i emptyMem).memId = (others.getD i emptyMem).memId := by
  induction others with
  | nil =>
    intro vals0 sts0 c ac _
    exact ⟨[], [], by simp [mergeAlts], by simp [mergeAlts], rfl, rfl,
      (by intro e he; cases he), (by intro o ho; cases ho), Nat.le_refl _, rfl, rfl,
      (by intro i hi; exact absurd hi (Nat.not_lt_zero i))⟩
  | cons o t ih =>
    intro vals0 sts0 c ac Ho
    obtain ⟨hb1, hb2, hb3, hb4, hb5, hb6, hb7, hb8, hb9⟩ :=
      readBytes_bound 1 o c addr ac c.mergeC (Ho o (List.mem_cons_self _ _))
    have hb1r : MemBoundBy (o.read_from c addr 1).2.2.varC ac c.mergeC
        (o.read_from c addr 1).2.1 := hb1
    have hb3r : c.varC ≤ (o.read_from c addr 1).2.2.varC := hb3
    have hb4r : (o.read_from c addr 1).2.2.addrC = c.addrC := hb4
    have hb5r : (o.read_from c addr 1).2.2.mergeC = c.mergeC := hb5
    have hbvr : ExprBoundBy (o.read_from c addr 1).2.2.varC ac c.mergeC
        (o.read_from c addr 1).1 := concatList_bound _ hb2
    have hstep : mergeAlts addr (o :: t) (vals0, sts0, c) =
        mergeAlts addr t (vals0 ++ [(o.read_from c addr 1).1],
          sts0 ++ [(o.read_from c addr 1).2.1], (o.read_from c addr 1).2.2) := rfl
    have hot : ∀ o2 ∈ t, MemBoundBy (o.read_from c addr 1).2.2.varC ac
        ((o.read_from c addr 1).2.2).mergeC o2 := by
      intro o2 ho2
      rw [hb5r]
      exact memBound_mono hb3r (Nat.le_refl _) (Nat.le_refl _) (Ho o2 (List.mem_cons_of_mem _ ho2))
    obtain ⟨vals, sts, hv1, hv2, hv3, hv4, hv5, hv6, hv7, hv8, hv9, hv10⟩ :=
      ih (vals0 ++ [(o.read_from c addr 1).1]) (sts0 ++ [(o.read_from c addr 1).2.1])
        (o.read_from c addr 1).2.2 ac hot
    rw [hb5r] at hv5 hv6
    refine ⟨(o.read_from c addr 1).1 :: vals, (o.read_from c addr 1).2.1 :: sts,
      ?_, ?_, by simp [hv3], by simp [hv4], ?_, ?_, ?_, ?_, ?_, ?_⟩
    · rw [hstep, hv1, List.append_assoc]
      rfl
    · rw [hstep, hv2, List.append_assoc]
      rfl
    · intro e he
      rcases List.mem_cons.mp he with rfl | he
      · rw [hstep]
        exact exprBound_mono hv7 (Nat.le_refl _) (Nat.le_refl _) hbvr
      · rw [hstep]
        exact hv5 e he
    · intro o2 ho2
      rcases List.mem_cons.mp ho2 with rfl | ho2
      · rw [hstep]
        exact memBound_mono hv7 (Nat.le_refl _) (Nat.le_refl _) hb1r
      · rw [hstep]
        exact hv6 o2 ho2
    · rw [hstep]
      exact Nat.le_trans hb3r hv7
    · rw [hstep, hv8]
      exact hb4r
    · rw [hstep, hv9]
      exact hb5r
    · intro i hi
      cases i with
      | zero =>
        refine ⟨?_, ?_, ?_, ?_⟩
        · intro b hb
          simp only [List.getD_cons_zero] at hb ⊢
          exact read_from_one_present o c addr b hb
        · intro hb
          simp only [List.getD_cons_zero] at hb ⊢
          exact ⟨c.varC, read_from_one_absent o c addr hb⟩
        · intro b2 hb2
          simp only [List.getD_cons_zero]
          exact hb6 b2 (by omega)
        · simp only [List.getD_cons_zero]
          exact hb7
      | succ i2 =>
        have hi2 : i2 < t.length := by
          simp only [List.length_cons] at hi
          omega
        have hrec := hv10 i2 hi2
        simpa only [List.getD_cons_succ] using hrec

/-- One full iteration of the merge loop at one address: it reads one
alternative from `self` and one from each other state (in order), allocates
the fresh merged byte at the current merge counter, writes it into `self`
at the address, and appends the one disjunctive constraint pairing the
alternatives with the flag values by position. -/
theorem mergeOne_spec (memId : String) (flag : SymExpr) (flagValues : List Nat)
    (m : SimMemory) (others : List SimMemory) (c : Counters) (acc : List Constr)
    (addr : Nat) (ac : Nat)
    (Hm : MemBoundBy c.varC ac c.mergeC m)
    (Ho : ∀ o ∈ others, MemBoundBy c.varC ac c.mergeC o)
    (Hid : m.memId = memId) :
    ∃ (alts : List SymExpr) (m2 : SimMemory) (sts : List SimMemory)
      (c2 : Counters) (ctr : Nat),
      mergeOne memId flag flagValues (m, others, c, acc) addr =
        (m2, sts, c2, acc ++ [Constr.disj ((alts.zip flagValues).map
          (fun p => Constr.conj [eqInt flag p.2,
            Constr.eq (.var (.merge memId addr ctr) 8) p.1]))]) ∧
      ctr = c.mergeC ∧
      alts.length = others.length + 1 ∧
      (∀ e ∈ alts, VarName.merge memId addr ctr ∉ e.vars) ∧
      m2.mem.get addr = some (.extract 7 0 (.var (.merge memId addr ctr) 8)) ∧
      (∀ b, b ≠ addr → m2.mem.get b = m.mem.get b) ∧
      MemBoundBy c2.varC ac c2.mergeC m2 ∧
      (∀ o ∈ sts, MemBoundBy c2.varC ac c2.mergeC o) ∧
      sts.length = others.length ∧
      c2.mergeC = c.mergeC + 1 ∧
      c2.addrC = c.addrC ∧
      c.varC ≤ c2.varC ∧
      m2.memId = memId ∧
      (∀ b, m.mem.get addr = some b → alts.getD 0 (.val 0 0) = b) ∧
      (m.mem.get addr = none →
        ∃ vctr, alts.getD 0 (.val 0 0) = .var (.mem memId addr vctr) 8) ∧
      (∀ i, i < others.length →
        (∀ b, (others.getD i emptyMem).mem.get addr = some b →
          alts.getD (i + 1) (.val 0 0) = b) ∧
        ((others.getD i emptyMem).mem.get addr = none →
          ∃ vctr, alts.getD (i + 1) (.val 0 0) =
            .var (.mem (others.getD i emptyMem).memId addr vctr) 8)) ∧
      (∀ i, i < others.length → ∀ b2, b2 ≠ addr →
        (sts.getD i emptyMem).mem.get b2 = (others.getD i emptyMem).mem.get b2) ∧
      (∀ i, i < others.length →
        (sts.getD i emptyMem).memId = (others.getD i emptyMem).memId) := by
  obtain ⟨rb1, rb2, rb3, rb4, rb5, rb6, rb7, rb8, rb9⟩ :=
    readBytes_bound 1 m c addr ac c.mergeC Hm
  have hr1 : MemBoundBy (m.read_from c addr 1).2.2.varC ac c.mergeC
      (m.read_from c addr 1).2.1 := rb1
  have hrv : ExprBoundBy (m.read_from c addr 1).2.2.varC ac c.mergeC
      (m.read_from c addr 1).1 := concatList_bound _ rb2
  have hr3 : c.varC ≤ (m.read_from c addr 1).2.2.varC := rb3
  have hr4 : (m.read_from c addr 1).2.2.addrC = c.addrC := rb4
  have hr5 : (m.read_from c addr 1).2.2.mergeC = c.mergeC := rb5
  have hr6 : ∀ b, b < addr ∨ addr + 1 ≤ b →
      (m.read_from c addr 1).2.1.mem.get b = m.mem.get b := rb6
  have hr7 : (m.read_from c addr 1).2.1.memId = m.memId := rb7
  have Ho2 : ∀ o ∈ others, MemBoundBy (m.read_from c addr 1).2.2.varC ac
      ((m.read_from c addr 1).2.2).mergeC o := by
    intro o ho
    rw [hr5]
    exact memBound_mono hr3 (Nat.le_refl _) (Nat.le_refl _) (Ho o ho)
  obtain ⟨vals, sts, hm1, hm2, hm3, hm4, hm5, hm6, hm7, hm8, hm9, hm10⟩ :=
    mergeAlts_spec addr others [(m.read_from c addr 1).1] []
      (m.read_from c addr 1).2.2 ac Ho2
  rw [hr5] at hm5 hm6
  have hfo1 : (mergeAlts addr others ([(m.read_from c addr 1).1], [],
      (m.read_from c addr 1).2.2)).1 = (m.read_from c addr 1).1 :: vals := by
    rw [hm1]
    rfl
  have hfoc : (mergeAlts addr others ([(m.read_from c addr 1).1], [],
      (m.read_from c addr 1).2.2)).2.2.mergeC = c.mergeC := by
    rw [hm9, hr5]
  have hfoa : (mergeAlts addr others ([(m.read_from c addr 1).1], [],
      (m.read_from c addr 1).2.2)).2.2.addrC = c.addrC := by
    rw [hm8, hr4]
  have hm2s : (mergeAlts addr others ([(m.read_from c addr 1).1], [],
      (m.read_from c addr 1).2.2)).2.1 = sts := by
    rw [hm2]
    rfl
  set r0 : SymExpr × SimMemory × Counters := m.read_from c addr 1 with hr0def
  set fo : List SymExpr × List SimMemory × Counters :=
    mergeAlts addr others ([r0.1], [], r0.2.2) with hfodef
  refine ⟨fo.1,
    r0.2.1.write_to addr (.var (.merge memId addr fo.2.2.mergeC) 8),
    fo.2.1,
    ⟨fo.2.2.varC, fo.2.2.addrC, fo.2.2.mergeC + 1⟩,
    fo.2.2.mergeC,
    rfl, hfoc, ?_, ?_, ?_, ?_, ?_, ?_, ?_, ?_, ?_, ?_, ?_, ?_, ?_, ?_, ?_, ?_⟩
  · rw [hfo1]
    simp [hm3]
  · intro e he
    rw [hfo1] at he
    rw [hfoc]
    rcases List.mem_cons.mp he with rfl | he
    · exact mergev_not_mem_of_bound hrv memId addr
    · exact mergev_not_mem_of_bound (hm5 e he) memId addr
  · rw [write_to_byte r0.2.1 addr (.var (.merge memId addr fo.2.2.mergeC) 8) rfl]
    exact BDict.get_set_self _ _ _
  · intro b hb
    rw [write_to_byte r0.2.1 addr (.var (.merge memId addr fo.2.2.mergeC) 8) rfl]
    show (r0.2.1.mem.set addr (.extract 7 0 (.var (.merge memId addr fo.2.2.mergeC) 8))).get b =
      m.mem.get b
    rw [BDict.get_set_ne _ _ _ _ hb]
    exact hr6 b (by omega)
  · show MemBoundBy fo.2.2.varC ac (fo.2.2.mergeC + 1)
      (r0.2.1.write_to addr (.var (.merge memId addr fo.2.2.mergeC) 8))
    rw [write_to_byte r0.2.1 addr (.var (.merge memId addr fo.2.2.mergeC) 8) rfl]
    show DictBoundBy fo.2.2.varC ac (fo.2.2.mergeC + 1)
      (r0.2.1.mem.set addr (.extract 7 0 (.var (.merge memId addr fo.2.2.mergeC) 8)))
    apply DictBoundBy.set
    · exact memBound_mono hm7 (Nat.le_refl _) (by omega) hr1
    · intro nm hnm
      rcases List.mem_singleton.mp hnm with rfl
      exact Nat.lt_succ_self _
  · intro o ho
    rw [hm2s] at ho
    show MemBoundBy fo.2.2.varC ac (fo.2.2.mergeC + 1) o
    exact memBound_mono (Nat.le_refl _) (Nat.le_refl _) (by omega) (hm6 o ho)
  · rw [hm2s]
    exact hm4
  · show fo.2.2.mergeC + 1 = c.mergeC + 1
    rw [hfoc]
  · exact hfoa
  · exact Nat.le_trans hr3 hm7
  · rw [write_to_byte r0.2.1 addr (.var (.merge memId addr fo.2.2.mergeC) 8) rfl]
    show r0.2.1.memId = memId
    rw [hr7, Hid]
  · intro b hb
    rw [hfo1]
    simp only [List.getD_cons_zero]
    rw [hr0def]
    exact read_from_one_present m c addr b hb
  · intro hb
    rw [hfo1]
    simp only [List.getD_cons_zero]
    refine ⟨c.varC, ?_⟩
    rw [hr0def, ← Hid]
    exact read_from_one_absent m c addr hb
  · intro i hi
    obtain ⟨ht1, ht2, ht3, ht4⟩ := hm10 i hi
    constructor
    · intro b hb
      rw [hfo1]
      simp only [List.getD_cons_succ]
      exact ht1 b hb
    · intro hb
      obtain ⟨vctr, hv⟩ := ht2 hb
      refine ⟨vctr, ?_⟩
      rw [hfo1]
      simp only [List.getD_cons_succ]
      exact hv
  · intro i hi b2 hb2
    rw [hm2s]
    exact (hm10 i hi).2.2.1 b2 hb2
  · intro i hi
    rw [hm2s]
    exact (hm10 i hi).2.2.2

/-- The merge loop over a duplicate-free address list: one disjunctive
constraint per address in order, each pairing one alternative per state
with the flag values by position, with a fresh merged byte written at its
address; addresses outside the list keep their entries.  The alternatives
are tied to the input states: at each address the `0`-th alternative is the
byte `self` stores there (or a fresh materialized memory variable when
absent), and the `i+1`-st is the byte the `i`-th other state stores
there (or its fresh materialized memory variable). -/
theorem mergeFold_spec (memId : String) (flag : SymExpr) (flagValues : List Nat)
    (ac N : Nat) (addrs : List Nat) :
    ∀ (m : SimMemory) (others : List SimMemory) (c : Counters) (acc : List Constr),
    addrs.Nodup →
    MemBoundBy c.varC ac c.mergeC m →
    (∀ o ∈ others, MemBoundBy c.varC ac c.mergeC o) →
    m.memId = memId →
    others.length = N →
    ∃ cs : List Constr,
      (addrs.foldl (mergeOne memId flag flagValues) (m, others, c, acc)).2.2.2 = acc ++ cs ∧
      cs.length = addrs.length ∧
      (∀ k, k < addrs.length →
        ∃ (alts : List SymExpr) (ctr : Nat),
          alts.length = N + 1 ∧
          cs.getD k (.disj []) = Constr.disj ((alts.zip flagValues).map
            (fun p => Constr.conj [eqInt flag p.2,
              Constr.eq (.var (.merge memId (addrs.getD k 0) ctr) 8) p.1])) ∧
          c.mergeC ≤ ctr ∧
          (∀ e ∈ alts, VarName.merge memId (addrs.getD k 0) ctr ∉ e.vars) ∧
          (addrs.foldl (mergeOne memId flag flagValues) (m, others, c, acc)).1.mem.get
              (addrs.getD k 0) =
            some (.extract 7 0 (.var (.merge memId (addrs.getD k 0) ctr) 8)) ∧
          (∀ b, m.mem.get (addrs.getD k 0) = some b → alts.getD 0 (.val 0 0) = b) ∧
          (m.mem.get (addrs.getD k 0) = none →
            ∃ vctr, alts.getD 0 (.val 0 0) = .var (.mem memId (addrs.getD k 0) vctr) 8) ∧
          (∀ i, i < N →
            (∀ b, (others.getD i emptyMem).mem.get (addrs.getD k 0) = some b →
              alts.getD (i + 1) (.val 0 0) = b) ∧
            ((others.getD i emptyMem).mem.get (addrs.getD k 0) = none →
              ∃ vctr, alts.getD (i + 1) (.val 0 0) =
                .var (.mem (others.getD i emptyMem).memId (addrs.getD k 0) vctr) 8))) ∧
      (∀ b, b ∉ addrs →
        (addrs.foldl (mergeOne memId flag flagValues) (m, others, c, acc)).1.mem.get b =
          m.mem.get b) := by
  induction addrs with
  | nil =>
    intro m others c acc _ _ _ _ _
    exact ⟨[], by simp, rfl, (by intro k hk; cases hk), fun b _ => rfl⟩
  | cons a t ih =>
    intro m others c acc hnd Hm Ho Hid HN
    obtain ⟨hna, hndt⟩ := List.nodup_cons.mp hnd
    obtain ⟨alts0, m2, sts, c2, ctr0, heq, hctr0, halts0len, hfresh0, hget0, hout0,
      hbm2, hbsts, hstslen, hc2m, hc2a, hc2v, hid2, hself1, hself2, hothers,
      hsts_pt, hsts_id⟩ :=
      mergeOne_spec memId flag flagValues m others c acc a ac Hm Ho Hid
    have hfold : (a :: t).foldl (mergeOne memId flag flagValues) (m, others, c, acc) =
        t.foldl (mergeOne memId flag flagValues)
          (m2, sts, c2, acc ++ [Constr.disj ((alts0.zip flagValues).map
            (fun p => Constr.conj [eqInt flag p.2,
              Constr.eq (.var (.merge memId a ctr0) 8) p.1]))]) := by
      rw [List.foldl_cons, heq]
    obtain ⟨cs, hcs1, hcs2, hcs3, hcs4⟩ := ih m2 sts c2
      (acc ++ [Constr.disj ((alts0.zip flagValues).map
        (fun p => Constr.conj [eqInt flag p.2,
          Constr.eq (.var (.merge memId a ctr0) 8) p.1]))])
      hndt hbm2 hbsts hid2 (by rw [hstslen, HN])
    refine ⟨Constr.disj ((alts0.zip flagValues).map
        (fun p => Constr.conj [eqInt flag p.2,
          Constr.eq (.var (.merge memId a ctr0) 8) p.1])) :: cs, ?_, ?_, ?_, ?_⟩
    · rw [hfold, hcs1, List.append_assoc]
      rfl
    · simp [hcs2]
    · intro k hk
      cases k with
      | zero =>
        refine ⟨alts0, ctr0, by omega, by simp, by omega, ?_, ?_, ?_, ?_, ?_⟩
        · intro e he
          exact hfresh0 e he
        · rw [hfold]
          show (t.foldl (mergeOne memId flag flagValues) _).1.mem.get ((a :: t).getD 0 0) =
            some (.extract 7 0 (.var (.merge memId ((a :: t).getD 0 0) ctr0) 8))
          rw [List.getD_cons_zero, hcs4 a hna, hget0]
        · simp only [List.getD_cons_zero]
          exact hself1
        · simp only [List.getD_cons_zero]
          exact hself2
        · simp only [List.getD_cons_zero]
          intro i hi
          exact hothers i (by omega)
      | succ k2 =>
        have hk2 : k2 < t.length := by
          simp at hk
          omega
        have hmem_t : t.getD k2 0 ∈ t := by
          rw [List.getD_eq_getElem t 0 hk2]
          exact List.getElem_mem hk2
        have hne_a : t.getD k2 0 ≠ a := by
          intro h
          rw [h] at hmem_t
          exact hna hmem_t
        obtain ⟨alts, ctr, ha1, ha2, ha3, ha4, ha5, hb1, hb2, hb3⟩ := hcs3 k2 hk2
        refine ⟨alts, ctr, ha1, ?_, by omega, ?_, ?_, ?_, ?_, ?_⟩
        · rw [List.getD_cons_succ, List.getD_cons_succ]
          exact ha2
        · intro e he
          rw [List.getD_cons_succ]
          exact ha4 e he
        · rw [List.getD_cons_succ, hfold]
          exact ha5
        · simp only [List.getD_cons_succ]
          intro b hb
          refine hb1 b ?_
          rw [hout0 _ hne_a]
          exact hb
        · simp only [List.getD_cons_succ]
          intro hb
          exact hb2 (by rw [hout0 _ hne_a]; exact hb)
        · simp only [List.getD_cons_succ]
          intro i hi
          obtain ⟨hc1, hc2⟩ := hb3 i hi
          have hsb : (sts.getD i emptyMem).mem.get (t.getD k2 0) =
              (others.getD i emptyMem).mem.get (t.getD k2 0) :=
            hsts_pt i (by omega) (t.getD k2 0) hne_a
          have hsid : (sts.getD i emptyMem).memId = (others.getD i emptyMem).memId :=
            hsts_id i (by omega)
          constructor
          · intro b hb
            refine hc1 b ?_
            rw [hsb]
            exact hb
          · intro hb
            obtain ⟨vctr, hv⟩ := hc2 (by rw [hsb]; exact hb)
            exact ⟨vctr, by rw [hv, hsid]⟩
    · intro b hb
      have hbt : b ∉ t := fun hmem => hb (List.mem_cons_of_mem _ hmem)
      have hba : b ≠ a := fun hba => hb (hba ▸ List.mem_cons_self _ _)
      rw [hfold, hcs4 b hbt, hout0 b hba]

/-! ## Claim C1: precise merge -/

/-- C1: `v0.merge(others, flag, flag_values)` (flag values matching the
states in order, i.e. one per state and pairwise distinct at the flag's
width) produces, for every address in the union of changed bytes — the
`k`-th in the iteration order — one list of alternatives read from `v0`
and from each other state in order: alternative `0` is the byte `v0`
stores at that address (a fresh materialized memory variable when absent)
and alternative `i+1` is the byte the `i`-th other state stores there (its
fresh materialized memory variable when absent); a fresh symbolic byte is
written into `v0` at that address, and the returned constraint is
`OR over i of (flag == flag_values[i] AND merged == alternatives[i])`;
under that constraint, fixing `flag == flag_values[i]` forces the merged
byte to evaluate to state `i`'s alternative — i.e. to state `i`'s stored
value at that address, so the constraint is satisfiable only with the
value held by the state whose flag value is chosen. -/
theorem merge_precise (m : SimMemory) (others : List SimMemory) (c : Counters)
    (flag : SymExpr) (flagValues : List Nat)
    (Hlen : flagValues.length = others.length + 1)
    (Hdist : flagValues.Pairwise (fun a b => a % 2 ^ flag.size ≠ b % 2 ^ flag.size))
    (Hm : MemBoundBy c.varC c.addrC c.mergeC m)
    (Ho : ∀ o ∈ others, MemBoundBy c.varC c.addrC c.mergeC o)
    (Hf : ∀ id a k, VarName.merge id a k ∈ flag.vars → k < c.mergeC) :
    ∃ cs : List Constr,
      (m.merge others c flag flagValues).1 = cs ∧
      cs.length = (m.merge_changed others).length ∧
      ∀ k, k < (m.merge_changed others).length →
        ∃ (alts : List SymExpr) (ctr : Nat),
          alts.length = flagValues.length ∧
          cs.getD k (.disj []) = Constr.disj ((alts.zip flagValues).map
            (fun p => Constr.conj [eqInt flag p.2,
              Constr.eq (.var (.merge m.memId ((m.merge_changed others).getD k 0) ctr) 8) p.1])) ∧
          VarName.merge m.memId ((m.merge_changed others).getD k 0) ctr ∉ flag.vars ∧
          (∀ e ∈ alts,
            VarName.merge m.memId ((m.merge_changed others).getD k 0) ctr ∉ e.vars) ∧
          (m.merge others c flag flagValues).2.1.mem.get
              ((m.merge_changed others).getD k 0) =
            some (.extract 7 0
              (.var (.merge m.memId ((m.merge_changed others).getD k 0) ctr) 8)) ∧
          (∀ b, m.mem.get ((m.merge_changed others).getD k 0) = some b →
            alts.getD 0 (.val 0 0) = b) ∧
          (m.mem.get ((m.merge_changed others).getD k 0) = none →
            ∃ vctr, alts.getD 0 (.val 0 0) =
              .var (.mem m.memId ((m.merge_changed others).getD k 0) vctr) 8) ∧
          (∀ i, i < others.length →
            (∀ b, (others.getD i emptyMem).mem.get ((m.merge_changed others).getD k 0) =
                some b →
              alts.getD (i + 1) (.val 0 0) = b) ∧
            ((others.getD i emptyMem).mem.get ((m.merge_changed others).getD k 0) = none →
              ∃ vctr, alts.getD (i + 1) (.val 0 0) =
                .var (.mem (others.getD i emptyMem).memId
                  ((m.merge_changed others).getD k 0) vctr) 8)) ∧
          ∀ (ρ : VarName → Nat) (i : Nat), i < flagValues.length →
            evalC ρ (cs.getD k (.disj [])) = true →
            evalE ρ flag = flagValues.getD i 0 % 2 ^ flag.size →
            evalE ρ (.var (.merge m.memId ((m.merge_changed others).getD k 0) ctr) 8) =
              evalE ρ (alts.getD i (.val 0 0)) := by
  have hnd : (m.merge_changed others).Nodup := canonSet_nodup _
  obtain ⟨cs, hcs1, hcs2, hcs3, hcs4⟩ :=
    mergeFold_spec m.memId flag flagValues c.addrC others.length (m.merge_changed others)
      m others c [] hnd Hm Ho rfl rfl
  have hm1 : (m.merge others c flag flagValues).1 = cs := by
    show ((m.merge_changed others).foldl (mergeOne m.memId flag flagValues)
      (m, others, c, [])).2.2.2 = cs
    rw [hcs1]
    rfl
  have hm2 : (m.merge others c flag flagValues).2.1 =
      ((m.merge_changed others).foldl (mergeOne m.memId flag flagValues)
        (m, others, c, [])).1 := rfl
  refine ⟨cs, hm1, hcs2, ?_⟩
  intro k hk
  obtain ⟨alts, ctr, ha1, ha2, ha3, ha4, ha5, hb1, hb2, hb3⟩ := hcs3 k hk
  have haltsfv : alts.length = flagValues.length := by omega
  refine ⟨alts, ctr, haltsfv, ha2, ?_, ha4, ?_, hb1, hb2, hb3, ?_⟩
  · intro hmem
    exact absurd (Hf _ _ _ hmem) (by omega)
  · rw [hm2]
    exact ha5
  · intro ρ i hi hsat hflag
    rw [ha2] at hsat
    exact merge_constraint_select flag _ alts flagValues haltsfv i hi Hdist ρ hsat hflag

/-- Witness for C1: merging the diverged views `mergeM0` (byte 17 at 100)
and `mergeM1` (byte 34 at 100) with flag values `[0, 1]`: the single
changed byte is 100, the alternatives are the stored bytes 17 and 34 in
state order, and any assignment satisfying the returned constraint gives
the merged byte the value 17 when the flag is 0 and the value 34 when the
flag is 1. -/
theorem merge_precise_witness :
    ([0, 1] : List Nat).length = [mergeM1].length + 1 ∧
    ([0, 1] : List Nat).Pairwise (fun a b => a % 2 ^ flagE.size ≠ b % 2 ^ flagE.size) ∧
    MemBoundBy czero.varC czero.addrC czero.mergeC mergeM0 ∧
    (∀ o ∈ [mergeM1], MemBoundBy czero.varC czero.addrC czero.mergeC o) ∧
    mergeM0.merge_changed [mergeM1] = [100] ∧
    mergeM0.mem.get 100 = some (.val 17 8) ∧
    mergeM1.mem.get 100 = some (.val 34 8) ∧
    ∃ (cs : List Constr) (alts : List SymExpr) (ctr : Nat),
      (mergeM0.merge [mergeM1] czero flagE [0, 1]).1 = cs ∧
      cs.length = 1 ∧
      alts.length = 2 ∧
      alts.getD 0 (.val 0 0) = .val 17 8 ∧
      alts.getD 1 (.val 0 0) = .val 34 8 ∧
      cs.getD 0 (.disj []) = Constr.disj ((alts.zip [0, 1]).map
        (fun p => Constr.conj [eqInt flagE p.2,
          Constr.eq (.var (.merge "mem" 100 ctr) 8) p.1])) ∧
      (mergeM0.merge [mergeM1] czero flagE [0, 1]).2.1.mem.get 100 =
        some (.extract 7 0 (.var (.merge "mem" 100 ctr) 8)) ∧
      ∀ ρ : VarName → Nat, evalC ρ (cs.getD 0 (.disj [])) = true →
        (evalE ρ flagE = 0 % 2 ^ flagE.size →
          evalE ρ (.var (.merge "mem" 100 ctr) 8) = 17) ∧
        (evalE ρ flagE = 1 % 2 ^ flagE.size →
          evalE ρ (.var (.merge "mem" 100 ctr) 8) = 34) := by
  obtain ⟨cs, hcs1, hcs2, hk⟩ :=
    merge_precise mergeM0 [mergeM1] czero flagE [0, 1] rfl (by decide) (by decide)
      (by decide)
      (by intro id a k hmem; simp [flagE, SymExpr.vars] at hmem)
  have hmc : mergeM0.merge_changed [mergeM1] = [100] := rfl
  have haddr : (mergeM0.merge_changed [mergeM1]).getD 0 0 = 100 := by decide
  have hlen1 : cs.length = 1 := by
    rw [hcs2, hmc]
    rfl
  obtain ⟨alts, ctr, ha1, ha2, ha3, ha4, ha5, hb1, hb2, hb3, hsem⟩ :=
    hk 0 (by rw [hmc]; decide)
  rw [haddr] at ha2 ha5
  have h17 : alts.getD 0 (.val 0 0) = .val 17 8 :=
    hb1 (.val 17 8) (by rw [haddr]; rfl)
  have h34 : alts.getD 1 (.val 0 0) = .val 34 8 :=
    ((hb3 0 (by decide)).1 (.val 34 8) (by rw [haddr]; rfl))
  refine ⟨rfl, by decide, by decide, by decide, hmc, rfl, rfl,
    cs, alts, ctr, hcs1, hlen1, ha1, h17, h34, ha2, ha5, ?_⟩
  intro ρ hsat
  constructor
  · intro hflag
    have hs := hsem ρ 0 (by decide) hsat hflag
    rw [haddr, h17] at hs
    exact hs.trans (by show (17 : Nat) % 2 ^ 8 = 17; norm_num)
  · intro hflag
    have hs := hsem ρ 1 (by decide) hsat hflag
    rw [haddr, h34] at hs
    exact hs.trans (by show (34 : Nat) % 2 ^ 8 = 34; norm_num)

/-! ## Claim C4: merge arity checking -/

/-- Counterexample to C4: calling `merge` with `flag_values = [0]` for two
states (one other plus self) does not fail — there is no arity check — and
the merge is committed: the changed byte of `self` is overwritten with the
fresh merged byte, and the single returned constraint silently drops the
second state's alternative (`zip` truncation). -/
theorem merge_arity_counterexample :
    ([0] : List Nat).length ≠ [mergeM1].length + 1 ∧
    (mergeM0.merge [mergeM1] czero flagE [0]).1 =
      [Constr.disj [Constr.conj [eqInt flagE 0,
        Constr.eq (.var (.merge "mem" 100 0) 8) (.val 17 8)]]] ∧
    (mergeM0.merge [mergeM1] czero flagE [0]).2.1.mem.get 100 =
      some (.extract 7 0 (.var (.merge "mem" 100 0) 8)) ∧
    (mergeM0.merge [mergeM1] czero flagE [0]).2.1.mem.get 100 ≠ mergeM0.mem.get 100 := by
  refine ⟨by decide, ?_, ?_, by decide⟩
  · rfl
  · rfl

/-- C4 (amended): `merge` performs no arity check.  With a `flag_values`
list whose length does not match the number of states being merged, the
call still returns normally and commits the merge — every changed byte of
`self` is overwritten with a fresh merged byte — and the constraint for
each changed byte pairs alternatives with flag values positionally, only up
to the shorter of the two lists. -/
theorem merge_commits_without_arity_check (m : SimMemory) (others : List SimMemory)
    (c : Counters) (flag : SymExpr) (flagValues : List Nat)
    (Hmis : flagValues.length ≠ others.length + 1)
    (Hm : MemBoundBy c.varC c.addrC c.mergeC m)
    (Ho : ∀ o ∈ others, MemBoundBy c.varC c.addrC c.mergeC o) :
    ∃ cs : List Constr,
      (m.merge others c flag flagValues).1 = cs ∧
      cs.length = (m.merge_changed others).length ∧
      ∀ k, k < (m.merge_changed others).length →
        ∃ (alts : List SymExpr) (ctr : Nat),
          alts.length = others.length + 1 ∧
          cs.getD k (.disj []) = Constr.disj ((alts.zip flagValues).map
            (fun p => Constr.conj [eqInt flag p.2,
              Constr.eq (.var (.merge m.memId ((m.merge_changed others).getD k 0) ctr) 8) p.1])) ∧
          (alts.zip flagValues).length = min (others.length + 1) flagValues.length ∧
          (m.merge others c flag flagValues).2.1.mem.get
              ((m.merge_changed others).getD k 0) =
            some (.extract 7 0
              (.var (.merge m.memId ((m.merge_changed others).getD k 0) ctr) 8)) := by
  have hnd : (m.merge_changed others).Nodup := canonSet_nodup _
  obtain ⟨cs, hcs1, hcs2, hcs3, hcs4⟩ :=
    mergeFold_spec m.memId flag flagValues c.addrC others.length (m.merge_changed others)
      m others c [] hnd Hm Ho rfl rfl
  have hm1 : (m.merge others c flag flagValues).1 = cs := by
    show ((m.merge_changed others).foldl (mergeOne m.memId flag flagValues)
      (m, others, c, [])).2.2.2 = cs
    rw [hcs1]
    rfl
  refine ⟨cs, hm1, hcs2, ?_⟩
  intro k hk
  obtain ⟨alts, ctr, ha1, ha2, ha3, ha4, ha5, hb1, hb2, hb3⟩ := hcs3 k hk
  refine ⟨alts, ctr, ha1, ha2, ?_, ha5⟩
  rw [List.length_zip, ha1]

/-- Witness for the amended C4 at the concrete mismatched call of the
counterexample. -/
theorem merge_commits_without_arity_check_witness :
    ([0] : List Nat).length ≠ [mergeM1].length + 1 ∧
    MemBoundBy czero.varC czero.addrC czero.mergeC mergeM0 ∧
    (∀ o ∈ [mergeM1], MemBoundBy czero.varC czero.addrC czero.mergeC o) ∧
    ∃ cs : List Constr,
      (mergeM0.merge [mergeM1] czero flagE [0]).1 = cs ∧
      cs.length = (mergeM0.merge_changed [mergeM1]).length ∧
      ∀ k, k < (mergeM0.merge_changed [mergeM1]).length →
        ∃ (alts : List SymExpr) (ctr : Nat),
          alts.length = [mergeM1].length + 1 ∧
          cs.getD k (.disj []) = Constr.disj ((alts.zip [0]).map
            (fun p => Constr.conj [eqInt flagE p.2,
              Constr.eq (.var (.merge mergeM0.memId
                ((mergeM0.merge_changed [mergeM1]).getD k 0) ctr) 8) p.1])) ∧
          (alts.zip [0]).length = min ([mergeM1].length + 1) ([0] : List Nat).length ∧
          (mergeM0.merge [mergeM1] czero flagE [0]).2.1.mem.get
              ((mergeM0.merge_changed [mergeM1]).getD k 0) =
            some (.extract 7 0 (.var (.merge mergeM0.memId
              ((mergeM0.merge_changed [mergeM1]).getD k 0) ctr) 8)) :=
  ⟨by decide, by decide, by decide,
    merge_commits_without_arity_check mergeM0 [mergeM1] czero flagE [0]
      (by decide) (by decide) (by decide)⟩

/-! ## Claim C9: cache serialization failure is non-fatal -/

/-- Restoring after detaching is one map over the stash. -/
theorem restore_map (proj : Nat) (states : List SimState) :
    (states.map (fun s => { s with project := none, trimmed := true })).map
      (fun s => { s with project := some proj }) =
    states.map (fun s => ({ s with project := some proj, trimmed := true } : SimState)) := by
  rw [List.map_map]
  rfl

/-- A successful dump detaches, pickles, and restores; nothing is logged
and nothing escapes. -/
theorem dump_stash_ok (proj : Nat) (states : List SimState) :
    Cacher.dump_stash (.ok ()) proj states =
      (states.map (fun s => ({ s with project := some proj, trimmed := true } : SimState)),
        [], none) := by
  show ((states.map (fun s => { s with project := none, trimmed := true })).map
      (fun s => { s with project := some proj }), ([] : List String),
      (none : Option PickleErr)) = _
  rw [restore_map]

/-- A dump whose pickling hits `RuntimeError` logs the failure, restores
every project reference, and lets no exception escape. -/
theorem dump_stash_runtime_error (msg : String) (proj : Nat) (states : List SimState) :
    Cacher.dump_stash (.error (.runtimeError msg)) proj states =
      (states.map (fun s => ({ s with project := some proj, trimmed := true } : SimState)),
        ["Unable to cache, " ++ msg ++ " during pickling"], none) := by
  show ((states.map (fun s => { s with project := none, trimmed := true })).map
      (fun s => { s with project := some proj }),
      ["Unable to cache, " ++ msg ++ " during pickling"],
      (none : Option PickleErr)) = _
  rw [restore_map]

/-- The dump loop never aborts when every pickling outcome is success or
`RuntimeError`, and every state it touches ends up with its project
restored. -/
theorem stepLoop_ok (dumpCache : Bool) (pickle : Nat → Except PickleErr Unit)
    (cond fileExists : SimState → Bool) (proj : Nat)
    (Hp : ∀ k, pickle k = .ok () ∨ ∃ msg, pickle k = .error (.runtimeError msg)) :
    ∀ (idxs : List Nat) (di : Nat) (stash : List SimState) (logs : List String),
    (Cacher.stepLoop dumpCache pickle cond fileExists proj idxs di stash logs).2.2 = none ∧
    (Cacher.stepLoop dumpCache pickle cond fileExists proj idxs di stash logs).1.length =
      stash.length ∧
    ∀ s ∈ (Cacher.stepLoop dumpCache pickle cond fileExists proj idxs di stash logs).1,
      s ∈ stash ∨ s.project = some proj := by
  intro idxs
  induction idxs with
  | nil => intro di stash logs; exact ⟨rfl, rfl, fun s hs => Or.inl hs⟩
  | cons i rest ih =>
    intro di stash logs
    by_cases hcond : (dumpCache && cond (stash.getD i ⟨none, false⟩)) = true
    · by_cases hex : fileExists (stash.getD i ⟨none, false⟩) = true
      · have hunf : Cacher.stepLoop dumpCache pickle cond fileExists proj
            (i :: rest) di stash logs =
            Cacher.stepLoop dumpCache pickle cond fileExists proj rest di stash logs := by
          simp only [Cacher.stepLoop, hcond, hex, if_true]
        rw [hunf]
        exact ih di stash logs
      · have hexf : fileExists (stash.getD i ⟨none, false⟩) = false :=
          Bool.not_eq_true _ ▸ (by simpa using hex)
        have h22 : (Cacher.dump_stash (pickle di) proj stash).2.2 = none := by
          rcases Hp di with hk | ⟨msg, hk⟩
          · rw [hk, dump_stash_ok]
          · rw [hk, dump_stash_runtime_error]
        have hd1 : (Cacher.dump_stash (pickle di) proj stash).1 =
            stash.map (fun s => ({ s with project := some proj, trimmed := true } :
              SimState)) := by
          rcases Hp di with hk | ⟨msg, hk⟩
          · rw [hk, dump_stash_ok]
          · rw [hk, dump_stash_runtime_error]
        have hunf : Cacher.stepLoop dumpCache pickle cond fileExists proj
            (i :: rest) di stash logs =
            Cacher.stepLoop dumpCache pickle cond fileExists proj rest (di + 1)
              (Cacher.dump_stash (pickle di) proj stash).1
              (logs ++ (Cacher.dump_stash (pickle di) proj stash).2.1) := by
          simp only [Cacher.stepLoop, hcond, hexf, if_true, Bool.false_eq_true, if_false,
            h22]
        rw [hunf]
        obtain ⟨h1, h2, h3⟩ := ih (di + 1) (Cacher.dump_stash (pickle di) proj stash).1
          (logs ++ (Cacher.dump_stash (pickle di) proj stash).2.1)
        refine ⟨h1, by rw [h2, hd1, List.length_map], ?_⟩
        intro s hs
        rcases h3 s hs with hmem | hproj
        · rw [hd1] at hmem
          obtain ⟨t, _, rfl⟩ := List.mem_map.mp hmem
          exact Or.inr rfl
        · exact Or.inr hproj
    · have hcondf : (dumpCache && cond (stash.getD i ⟨none, false⟩)) = false :=
        Bool.not_eq_true _ ▸ (by simpa using hcond)
      have hunf : Cacher.stepLoop dumpCache pickle cond fileExists proj
          (i :: rest) di stash logs =
          Cacher.stepLoop dumpCache pickle cond fileExists proj rest di stash logs := by
        simp only [Cacher.stepLoop, hcondf, Bool.false_eq_true, if_false]
      rw [hunf]
      exact ih di stash logs

/-- C9: when a dump's serialization fails with `RuntimeError` (the maximum
recursion depth case), the failure is logged and treated as a skipped
cache write — it never escapes the dump call and never propagates out of
`step` as an execution failure; the states' project references are restored
afterwards, and the stepping of the simulation manager proceeds. -/
theorem cache_failure_nonfatal (dumpCache : Bool)
    (pickle : Nat → Except PickleErr Unit) (cond fileExists : SimState → Bool)
    (stepFn : SimManager → SimManager) (mgr : SimManager)
    (Hp : ∀ k, pickle k = .ok () ∨ ∃ msg, pickle k = .error (.runtimeError msg)) :
    (∀ (msg : String) (proj : Nat) (states : List SimState),
      Cacher.dump_stash (.error (.runtimeError msg)) proj states =
        (states.map (fun s => ({ s with project := some proj, trimmed := true } : SimState)),
          ["Unable to cache, " ++ msg ++ " during pickling"], none)) ∧
    ∃ (stash1 : List SimState) (logs : List String),
      Cacher.step dumpCache pickle cond fileExists stepFn mgr =
        .ok (stepFn { mgr with stash := stash1 }, logs) ∧
      stash1.length = mgr.stash.length ∧
      (∀ s ∈ stash1, s ∈ mgr.stash ∨ s.project = some mgr.project) := by
  refine ⟨dump_stash_runtime_error, ?_⟩
  obtain ⟨h1, h2, h3⟩ := stepLoop_ok dumpCache pickle cond fileExists mgr.project Hp
    (List.range mgr.stash.length) 0 mgr.stash []
  refine ⟨(Cacher.stepLoop dumpCache pickle cond fileExists mgr.project
      (List.range mgr.stash.length) 0 mgr.stash []).1,
    (Cacher.stepLoop dumpCache pickle cond fileExists mgr.project
      (List.range mgr.stash.length) 0 mgr.stash []).2.1, ?_, h2, h3⟩
  have hgen : ∀ (L : List SimState × List String × Option PickleErr), L.2.2 = none →
      (match L.2.2 with
        | some e => (Except.error e : Except PickleErr (SimManager × List String))
        | none => Except.ok (stepFn { mgr with stash := L.1 }, L.2.1)) =
      Except.ok (stepFn { mgr with stash := L.1 }, L.2.1) := by
    intro L hL
    rw [hL]
  exact hgen _ h1

/-- Witness for C9: a single-state manager whose only pickling attempt
fails with the maximum-recursion-depth `RuntimeError`; stepping proceeds. -/
theorem cache_failure_nonfatal_witness :
    (∀ k : Nat, (fun _ : Nat => (.error (.runtimeError "maximum recursion depth exceeded") :
        Except PickleErr Unit)) k = .ok () ∨
      ∃ msg, (fun _ : Nat => (.error (.runtimeError "maximum recursion depth exceeded") :
        Except PickleErr Unit)) k = .error (.runtimeError msg)) ∧
    ∃ (stash1 : List SimState) (logs : List String),
      Cacher.step true (fun _ => .error (.runtimeError "maximum recursion depth exceeded"))
        (fun _ => true) (fun _ => false) id ⟨7, [⟨some 7, false⟩]⟩ =
        .ok (id { (⟨7, [⟨some 7, false⟩]⟩ : SimManager) with stash := stash1 }, logs) ∧
      stash1.length = (⟨7, [⟨some 7, false⟩]⟩ : SimManager).stash.length ∧
      (∀ s ∈ stash1, s ∈ (⟨7, [⟨some 7, false⟩]⟩ : SimManager).stash ∨
        s.project = some (⟨7, [⟨some 7, false⟩]⟩ : SimManager).project) :=
  ⟨fun _ => Or.inr ⟨"maximum recursion depth exceeded", rfl⟩,
    (cache_failure_nonfatal true
      (fun _ => .error (.runtimeError "maximum recursion depth exceeded"))
      (fun _ => true) (fun _ => false) id ⟨7, [⟨some 7, false⟩]⟩
      (fun _ => Or.inr ⟨"maximum recursion depth exceeded", rfl⟩)).2⟩
